import Mathlib

set_option maxRecDepth 8000
set_option linter.unusedVariables false

/-!
Shallow embedding of `alphalens/utils.py` (samholt/alphalens) and proofs of
the behavioural claims about it.

Modelling conventions:
* dates and panel positions are natural numbers (positions in the ordered,
  unique date index of the wide price panel);
* asset identifiers are strings;
* prices, factor values and returns are rationals;
* missing values (NaN) are modelled with `Option`;
* a raised Python exception is modelled with `Except`.
-/

namespace Alphalens

/-- Decidable equality for raised-or-returned results. -/
instance {ε α : Type} [DecidableEq ε] [DecidableEq α] : DecidableEq (Except ε α) := fun x y =>
  match x, y with
  | Except.ok a, Except.ok b =>
    if h : a = b then isTrue (by rw [h]) else isFalse (fun hh => by cases hh; exact h rfl)
  | Except.ok _, Except.error _ => isFalse (fun hh => by cases hh)
  | Except.error _, Except.ok _ => isFalse (fun hh => by cases hh)
  | Except.error e, Except.error f =>
    if h : e = f then isTrue (by rw [h]) else isFalse (fun hh => by cases hh; exact h rfl)

abbrev Asset := String

/-! ## Column classifier: `get_forward_returns_columns` (utils.py line 564) -/

/-- Source: `columns[columns.astype(str).str.isdigit()]`.  Python
`str.isdigit` holds exactly for nonempty all-digit strings. -/
def get_forward_returns_columns (columns : List String) : List String :=
  columns.filter (fun c => !c.toList.isEmpty && c.toList.all Char.isDigit)

/-! ## Forward-return engine: `compute_forward_returns` (utils.py lines 105-146) -/

/-- One asset column of `prices.pct_change(period)`: entry `i` is
`price[i] / price[i - period] - 1`, missing for the first `period` rows.
The panel is modelled without missing prices, so the pandas default
forward-fill of missing prices is the identity. -/
def pctChange (period : ℕ) (col : List ℚ) : List (Option ℚ) :=
  (List.range col.length).map (fun i =>
    if period ≤ i then some (col.getD i 0 / col.getD (i - period) 0 - 1) else none)

/-- One asset column of `.shift(-period)`: entry `i` takes the value at row
`i + period`, missing when that row falls off the end of the panel. -/
def shiftNeg (period : ℕ) (col : List (Option ℚ)) : List (Option ℚ) :=
  (List.range col.length).map (fun i =>
    if i + period < col.length then col.getD (i + period) none else none)

/-- Values of a column that are not missing; pandas skipna statistics see
exactly these. -/
def someVals (col : List (Option ℚ)) : List ℚ := col.filterMap id

/-- Pandas skipna mean of a column. -/
def colMean (col : List (Option ℚ)) : ℚ := (someVals col).sum / (someVals col).length

/-- Pandas skipna sample variance (ddof = 1) of a column.  It is only
consulted when the column has at least two observations; otherwise pandas
`std` is NaN and every comparison with it is false. -/
def colVar (col : List (Option ℚ)) : ℚ :=
  ((someVals col).map (fun v => (v - colMean col) ^ 2)).sum /
    (((someVals col).length : ℚ) - 1)

/-- Source lines 138-140:
`mask = abs(delta - delta.mean()) > (filter_zscore * delta.std())` followed by
`delta[mask] = np.nan`, applied to one asset column of the wide frame
`delta`.  Because `std` is the irrational square root of the variance, the
mask is expressed by the equivalent squared comparison
`(v - mean)^2 > z^2 * var`; the two are equivalent for the nonnegative
thresholds the interface admits, since `std` is nonnegative.  When the column
has fewer than two observations, pandas `std` is NaN, the mask is everywhere
false and nothing is filtered. -/
def zscoreFilter (z : ℚ) (col : List (Option ℚ)) : List (Option ℚ) :=
  if 2 ≤ (someVals col).length then
    col.map (fun o => o.bind (fun v =>
      if z ^ 2 * colVar col < (v - colMean col) ^ 2 then none else some v))
  else col

/-- Column of the asset at column position `ai` of the wide price panel
(rows = dates, columns = assets). -/
def assetCol (prices : List (List ℚ)) (ai : ℕ) : List ℚ :=
  prices.map (fun row => row.getD ai 0)

/-- The period-`p` forward-return column of `compute_forward_returns` for the
asset at column position `ai`:
`delta = prices.pct_change(period).shift(-period)` followed by the optional
z-score filter.  Entry `i` of the result is the value stored in the output
frame at key (date `i`, asset `ai`) in column `p`; `delta.stack()` drops the
missing entries and assigning the stack to the full (date, asset) product
index restores them as NaN, so the long-format cell equals entry `i`
directly. -/
def compute_forward_returns (prices : List (List ℚ)) (ai : ℕ) (p : ℕ)
    (filter_zscore : Option ℚ) : List (Option ℚ) :=
  match filter_zscore with
  | none => shiftNeg p (pctChange p (assetCol prices ai))
  | some z => zscoreFilter z (shiftNeg p (pctChange p (assetCol prices ai)))

/-! ## Display collaborator: `print_table` (utils.py lines 189-220) -/

/-- Global pandas option state relevant to `print_table`: the current value
of the option `display.float_format`.  The source installs a lambda closing
over the format string; the state records that format string. -/
structure DisplayOptions where
  float_format : Option String
deriving DecidableEq

/-- Source lines 207-220.  The external renderer `display(table)` may raise,
modelled by the flag `displayRaises`; the source wraps it in no try/finally.
Mirrors: read `prev_option`; if `fmt` is not None, set the option; call
`display`; if `fmt` is not None, set the option back to `prev_option`.
Returns the final global option state together with the normal or raising
exit. -/
def print_table (fmt : Option String) (displayRaises : Bool)
    (opts : DisplayOptions) : DisplayOptions × Except Unit Unit :=
  let prev_option := opts.float_format
  let opts1 := if fmt.isSome then { float_format := fmt } else opts
  if displayRaises then (opts1, Except.error ()) else
  let opts2 := if fmt.isSome then { float_format := prev_option } else opts1
  (opts2, Except.ok ())

/-! ## Python errors and the bin-edges diagnostic decorator
    (`non_unique_bin_edges_error`, utils.py lines 25-53) -/

/-- The Python exceptions raised by the module: `ValueError` (pandas qcut and
`quantile_calc`), the two `KeyError`s of the pipeline (modelled with their
structured payload, the list formatted into the message by the source), and
`NonMatchingTimezoneError`. -/
inductive PyErr where
  | valueError (msg : String)
  | keyErrorAssets (assets : List Asset)
  | keyErrorGroups (groups : List String)
  | nonMatchingTimezoneError (msg : String)
deriving DecidableEq

/-- Python substring containment `pat in s`, over character lists: `pat` is
a prefix of some suffix of `s`. -/
def containsSub (pat : List Char) : List Char → Bool
  | [] => pat.isEmpty
  | c :: t => pat.isPrefixOf (c :: t) || containsSub pat t

/-- Python substring containment `pat in s` for strings. -/
def strContains (s pat : String) : Bool := containsSub pat.toList s.toList

/-- The message with which pandas `qcut` raises when the computed quantile
bin edges collide. -/
def binEdgesMsg : String := "Bin edges must be unique"

/-- The extended diagnostic printed by the decorator (source lines 35-51):
it explains the cause and lists the four concrete remedies.  The wording is
abridged to avoid quote characters; the four numbered remedies match the
source. -/
def binEdgesDiag : String :=
  "It is NOT possible to compute the selected quantiles for the input " ++
  "provided. This usually happens when the input contains too many identical " ++
  "values and they span more than one quantile. The quantiles are choosen " ++
  "to have the same number of records each, but the same value cannot span " ++
  "multiple quantiles. Possible workarounds are: " ++
  "1 - Decrease the number of quantiles " ++
  "2 - Specify a custom quantiles range, e.g. [0, .50, .75, 1.] to get " ++
  "unequal number of records per quantile " ++
  "3 - Use bins option instead of quantiles, bins chooses the buckets to be " ++
  "evenly spaced according to the values themselves, while quantiles forces " ++
  "the buckets to have the same number of records " ++
  "4 - for factors with discrete values use the bins option with custom " ++
  "ranges and create a range for each discrete value " ++
  "Please see utils.get_clean_factor_and_forward_returns documentation for " ++
  "full documentation of bins and quantiles options."

/-- Source decorator `non_unique_bin_edges_error`: run the wrapped
computation; when it raises a `ValueError` whose message contains the
bin-edges text, print the extended diagnostic; in every error case re-raise
the original error object unchanged.  Exceptions that are not `ValueError`
are not intercepted at all.  The first component collects the printed
messages. -/
def non_unique_bin_edges_error {α : Type} (r : Except PyErr α) :
    List String × Except PyErr α :=
  match r with
  | Except.ok a => ([], Except.ok a)
  | Except.error e =>
    match e with
    | PyErr.valueError msg =>
      if strContains msg binEdgesMsg then ([binEdgesDiag], Except.error e)
      else ([], Except.error e)
    | _ => ([], Except.error e)

/-! ## Quantile/bin bucketer: pandas `qcut` and `cut`, `quantile_calc` and
    `quantize_factor` (utils.py lines 56-102) -/

/-- The data sorted ascending; the quantiles of a sample are computed from
its order statistics. -/
def sortedVals (x : List ℚ) : List ℚ := List.insertionSort (· ≤ ·) x

/-- Linearly interpolated sample quantile `j/k` of the sorted data `s`, as
numpy percentile with linear interpolation computes it: with
`N = length - 1`, the value at fractional position `N * j / k`, i.e.
`s[m] + frac * (s[m+1] - s[m])` with `m = N * j / k` (integer part) and
`frac = (N * j mod k) / k` (fractional part). -/
def qEdge (s : List ℚ) (k j : ℕ) : ℚ :=
  s.getD ((s.length - 1) * j / k) 0 +
    ((((s.length - 1) * j) % k : ℕ) : ℚ) / (k : ℚ) *
      (s.getD ((s.length - 1) * j / k + 1) 0 - s.getD ((s.length - 1) * j / k) 0)

/-- The `k + 1` quantile bin edges `qcut` computes for `pd.qcut(x, k)`. -/
def qEdges (s : List ℚ) (k : ℕ) : List ℚ := (List.range (k + 1)).map (qEdge s k)

/-- The 0-based bucket `qcut` assigns to value `v` among the `k` quantile
buckets: the number of interior edges strictly below `v` (searchsorted over
right-closed intervals, with the minimum forced into bucket 0). -/
def qcutLabel (s : List ℚ) (k : ℕ) (v : ℚ) : ℕ :=
  ((Finset.Icc 1 (k - 1)).filter (fun j => qEdge s k j < v)).card

/-- `pd.qcut(x, k, labels=False)`: compute the `k + 1` quantile edges; raise
`ValueError` when they are not unique; otherwise label each value with its
0-based bucket. -/
def qcut (x : List ℚ) (k : ℕ) : Except PyErr (List ℕ) :=
  if (qEdges (sortedVals x) k).Nodup then
    Except.ok (x.map (qcutLabel (sortedVals x) k))
  else Except.error (PyErr.valueError binEdgesMsg)

/-- `pd.cut(x, b, labels=False)` with an integer bin count: `b` equal-width
buckets over `[min, max]`, labelled like `qcut` by counting interior edges
below the value.  (The pandas 0.1 percent widening of the outer edges only
moves values sitting exactly on the outer edges; no claim evaluates the bins
branch.) -/
def cut (x : List ℚ) (b : ℕ) : Except PyErr (List ℕ) :=
  let mn := (sortedVals x).getD 0 0
  let mx := (sortedVals x).getD (x.length - 1) 0
  Except.ok (x.map (fun v =>
    ((Finset.Icc 1 (b - 1)).filter (fun j : ℕ => mn + (mx - mn) * (j : ℚ) / (b : ℚ) < v)).card))

/-- Source lines 87-92 `quantile_calc`: exactly one of quantiles/bins may be
provided, otherwise `ValueError`; the 0-based `qcut`/`cut` labels are made
1-based by adding 1. -/
def quantile_calc (x : List ℚ) (quantiles bins : Option ℕ) : Except PyErr (List ℕ) :=
  match quantiles, bins with
  | some k, none => (qcut x k).map (fun ls => ls.map (· + 1))
  | none, some b => (cut x b).map (fun ls => ls.map (· + 1))
  | _, _ => Except.error (PyErr.valueError "Either quantiles or bins should be provided")

/-- One row of the merged factor/returns table: MultiIndex key (date, asset),
one forward-return cell per requested period, the factor value, the optional
group label, and — once assigned — the factor quantile. -/
structure MergedRow where
  date : ℕ
  asset : Asset
  fwd : List (Option ℚ)
  factor : Option ℚ
  group : Option String
  factor_quantile : Option ℕ := none
deriving DecidableEq

/-- Grouping key used by `quantize_factor`: the date index level, refined by
the group column when `by_group` is set (source lines 94-96). -/
def quantizeKey (by_group : Bool) (r : MergedRow) : ℕ × Option String :=
  (r.date, if by_group then r.group else none)

/-- `groupby(grouper)['factor'].apply(quantile_calc, quantiles, bins)`:
apply `quantile_calc` to each key group in turn, zip each group with its
labels and concatenate; the first raising group aborts the whole apply. -/
def quantizeGroups (rows : List MergedRow) (quantiles bins : Option ℕ)
    (by_group : Bool) : List (ℕ × Option String) → Except PyErr (List ((ℕ × Asset) × ℕ))
  | [] => Except.ok []
  | key :: ks =>
    match quantile_calc (((rows.filter (fun r => quantizeKey by_group r = key)).map
        (fun r => r.factor.getD 0))) quantiles bins with
    | Except.error e => Except.error e
    | Except.ok labs =>
      match quantizeGroups rows quantiles bins by_group ks with
      | Except.error e => Except.error e
      | Except.ok rest =>
        Except.ok (((rows.filter (fun r => quantizeKey by_group r = key)).map
          (fun r => (r.date, r.asset))).zip labs ++ rest)

/-- Source lines 56-102: the decorated quantizer.  Groups the merged table by
date (and group when `by_group`), buckets each group with `quantile_calc`,
and runs under the bin-edges diagnostic decorator.  First component: the
printed diagnostics.  (The final `.dropna()` of the source is the identity
here: integer labels are never missing.) -/
def quantize_factor (rows : List MergedRow) (quantiles bins : Option ℕ)
    (by_group : Bool) : List String × Except PyErr (List ((ℕ × Asset) × ℕ)) :=
  non_unique_bin_edges_error
    (quantizeGroups rows quantiles bins by_group ((rows.map (quantizeKey by_group)).dedup))



/-- Merged rows with factor values 1, 1, 2 on a single date: the tied value 1
occupies the two bottom ranks of three, so the tie does not span the would-be
2-quantile bucket boundary (the equal split is values 1, 1 against value 2),
yet the interpolated median edge equals 1 and collides with the minimum
edge. -/
def degenerateRows : List MergedRow :=
  [⟨0, "A", [], some 1, none, none⟩, ⟨0, "B", [], some 1, none, none⟩,
   ⟨0, "C", [], some 2, none, none⟩]

/-! ## Group demeaning: `demean_forward_returns` (utils.py lines 149-186) -/

/-- A table as `demean_forward_returns` sees it: named columns, and rows
carrying the grouping key (the date level by default, or the supplied
grouper value — source lines 179-180) together with the cell contents per
column name. -/
structure DTable where
  columns : List String
  rows : List (String × (String → Option ℚ))

/-- Skipna mean of column `c` over the rows of group `g` (what
`groupby(grouper)[cols].transform(lambda x: x - x.mean())` subtracts). -/
def groupColMean (t : DTable) (g c : String) : ℚ :=
  colMean ((t.rows.filter (fun r => r.1 = g)).map (fun r => r.2 c))

/-- Source lines 149-186: on a copy of the input, replace every
forward-return column (identified by the classifier) by the value minus its
group mean; all other columns are untouched.  The embedding is pure, which
realises the `factor_data = factor_data.copy()` of line 177: the argument is
never mutated. -/
def demean_forward_returns (t : DTable) : DTable :=
  { columns := t.columns
    rows := t.rows.map (fun r =>
      (r.1, fun c => if c ∈ get_forward_returns_columns t.columns
        then (r.2 c).map (fun v => v - groupColMean t r.1 c) else r.2 c)) }

/-- Skipna sum of column `c` over the rows of group `g`. -/
def groupColSum (t : DTable) (g c : String) : ℚ :=
  (someVals ((t.rows.filter (fun r => r.1 = g)).map (fun r => r.2 c))).sum

/-! ## Common-start-return aggregator: `common_start_returns`
    (utils.py lines 394-484) -/

/-- The window extraction of source lines 456-469 for one event date sitting
at position `dayZero` of an `n`-row price panel:
`starting_index = max(day_zero - before, 0)` (natural subtraction realises
the `max` with 0), `ending_index = min(day_zero + after + 1, len(index))`,
rows `starting_index .. ending_index - 1` re-indexed to the relative offsets
`starting_index - day_zero .. ending_index - 1 - day_zero`.  Each element
pairs the relative offset with the selected panel position. -/
def common_start_window (n dayZero before after : ℕ) : List (ℤ × ℕ) :=
  (List.range' (dayZero - before)
      (min (dayZero + after + 1) n - (dayZero - before))).map
    (fun idx : ℕ => ((idx : ℤ) - (dayZero : ℤ), idx))

/-- Source lines 445-484 reduced to the index bookkeeping the claims are
about: for each distinct event date of the factor table, locate it in the
price index (`get_loc`; a KeyError skips the date, line 451-454) and extract
its clipped window; `pd.concat` of the collected windows raises ValueError
when there is nothing to concatenate. -/
def common_start_returns (factor : List (ℕ × Asset)) (pricesIndex : List ℕ)
    (before after : ℕ) : Except PyErr (List (ℕ × List (ℤ × ℕ))) :=
  let all_returns := ((factor.map (fun e => e.1)).dedup).filterMap (fun d =>
    match pricesIndex.findIdx? (fun x => x = d) with
    | none => none
    | some i => some (d, common_start_window pricesIndex.length i before after))
  if all_returns.isEmpty then Except.error (PyErr.valueError "No objects to concatenate")
  else Except.ok all_returns

/-- The full period-`p` column of the long-format output of
`compute_forward_returns`: the per-asset delta columns stacked over the
(date, asset) product index.  Claim C8 reads the mean/std of this pooled
column; the source computes them per asset instead. -/
def stacked_period_column (prices : List (List ℚ)) (nAssets p : ℕ)
    (filter_zscore : Option ℚ) : List (Option ℚ) :=
  (List.range prices.length).flatMap (fun i =>
    (List.range nAssets).map (fun ai =>
      (compute_forward_returns prices ai p filter_zscore).getD i none))

/-- A 5-date, 2-asset panel: asset 0 constant (returns 0), asset 1
alternating (returns 1/2, -1/2, 1/2, -1/2). -/
def pooledPrices : List (List ℚ) := [[1, 1], [1, 3/2], [1, 3/4], [1, 9/8], [1, 9/16]]

/-- Formalisation of a tie spanning a would-be bucket boundary: for some
interior boundary `j` of the `k` equal-frequency buckets, the sorted value at
the cut rank `m_j = (n - 1) * j / k` (the last rank of bucket `j`) reappears
at rank `m_j + 1` (the first rank of bucket `j + 1`), so one value mass
crosses the cut.  Claim C2 assumes no boundary is spanned. -/
def tieSpansBoundary (vals : List ℚ) (k : ℕ) : Bool :=
  (List.range (k - 1)).any (fun j0 =>
    decide ((vals.length - 1) * (j0 + 1) / k + 1 < vals.length) &&
    decide ((sortedVals vals).getD ((vals.length - 1) * (j0 + 1) / k) 0 =
      (sortedVals vals).getD ((vals.length - 1) * (j0 + 1) / k + 1) 0))



/-! ## Alignment/merge pipeline: `get_clean_factor_and_forward_returns`
    (utils.py lines 223-391) -/

/-- The `groupby` argument of the pipeline: either a static asset-to-group
dict or a (date, asset)-keyed series of group codes. -/
inductive GroupBySpec where
  | dict (m : List (Asset × String))
  | series (s : List ((ℕ × Asset) × String))
deriving DecidableEq

/-- The computation steps of the pipeline, in source order, used to observe
when an error is raised relative to the work already performed. -/
inductive PipelineEvent where
  | forwardReturnsComputed
  | factorMerged
  | groupMerged
  | naDropped
  | quantized
deriving DecidableEq

/-- Source lines 357-358: `set(factor assets) - set(groupby.keys())`,
as the deduplicated list of factor assets without a dict entry. -/
def missing_assets (factor : List ((ℕ × Asset) × ℚ)) (m : List (Asset × String)) :
    List Asset :=
  ((factor.map (fun e => e.1.2)).dedup).filter
    (fun a => (m.find? (fun p => p.1 = a)).isNone)

/-- Source lines 364-367: broadcast the static dict across the factor
index. -/
def broadcast_groupby (factor : List ((ℕ × Asset) × ℚ)) (m : List (Asset × String)) :
    List ((ℕ × Asset) × String) :=
  factor.map (fun e => (e.1, ((m.find? (fun p => p.1 = e.1.2)).map (fun p => p.2)).getD ""))

/-- Source line 370: `set(groupby.values) - set(groupby_labels.keys())`. -/
def missing_groups (bcast : List ((ℕ × Asset) × String))
    (lbls : List (String × String)) : List String :=
  ((bcast.map (fun e => e.2)).dedup).filter
    (fun g => (lbls.find? (fun p => p.1 = g)).isNone)

/-- Source lines 376-378: replace group codes with display labels. -/
def relabel (bcast : List ((ℕ × Asset) × String)) (lbls : List (String × String)) :
    List ((ℕ × Asset) × String) :=
  bcast.map (fun e => (e.1, ((lbls.find? (fun p => p.1 = e.2)).map (fun p => p.2)).getD e.2))

/-- Source lines 355-380: the group-mapping resolution of the pipeline,
with its two KeyErrors.  Returns the per-(date, asset) group series when a
grouping was requested. -/
def resolve_groupby (factor : List ((ℕ × Asset) × ℚ)) (groupby : Option GroupBySpec)
    (groupby_labels : Option (List (String × String))) :
    Except PyErr (Option (List ((ℕ × Asset) × String))) :=
  match groupby with
  | none => Except.ok none
  | some gb =>
    match (match gb with
      | GroupBySpec.dict m =>
        if missing_assets factor m ≠ [] then
          Except.error (PyErr.keyErrorAssets (missing_assets factor m))
        else Except.ok (broadcast_groupby factor m)
      | GroupBySpec.series s => Except.ok s) with
    | Except.error e => Except.error e
    | Except.ok bcast =>
      match groupby_labels with
      | none => Except.ok (some bcast)
      | some lbls =>
        if missing_groups bcast lbls ≠ [] then
          Except.error (PyErr.keyErrorGroups (missing_groups bcast lbls))
        else Except.ok (some (relabel bcast lbls))

/-- Source lines 349-381: the merged table over the full
(date, asset) product index of the price panel: forward-return cells per
period, the factor value where the factor index has the key, and the
resolved group where present. -/
def merged_rows (factor : List ((ℕ × Asset) × ℚ)) (prices : List (List ℚ))
    (assets : List Asset) (periods : List ℕ) (filter_zscore : Option ℚ)
    (groups : Option (List ((ℕ × Asset) × String))) : List MergedRow :=
  (List.range prices.length).flatMap (fun i =>
    (List.range assets.length).map (fun ai =>
      { date := i
        asset := assets.getD ai ""
        fwd := periods.map (fun p =>
          (compute_forward_returns prices ai p filter_zscore).getD i none)
        factor := (factor.find? (fun e => e.1 = (i, assets.getD ai ""))).map (fun e => e.2)
        group := match groups with
          | none => none
          | some g => (g.find? (fun e => e.1 = (i, assets.getD ai ""))).map (fun e => e.2)
        factor_quantile := none }))

/-- Source line 382: `merged_data.dropna()` — drop every row with any
missing cell (the group column exists only when a grouping was given). -/
def dropna (hasGroup : Bool) (rows : List MergedRow) : List MergedRow :=
  rows.filter (fun r =>
    r.fwd.all Option.isSome && r.factor.isSome && (!hasGroup || r.group.isSome))

/-- The tail of the pipeline after timezone check and group resolution:
dropna, quantize (source line 384), attach `factor_quantile` and drop rows
that received no bucket (the second dropna, line 389).  Split out so proofs
can reduce the pipeline stepwise. -/
def pipeline_after_merge (factor : List ((ℕ × Asset) × ℚ)) (prices : List (List ℚ))
    (assets : List Asset) (by_group : Bool) (quantiles bins : Option ℕ)
    (periods : List ℕ) (filter_zscore : Option ℚ)
    (groups : Option (List ((ℕ × Asset) × String))) :
    List PipelineEvent × Except PyErr (List MergedRow) :=
  match (quantize_factor (dropna groups.isSome
      (merged_rows factor prices assets periods filter_zscore groups))
      quantiles bins by_group).2 with
  | Except.error e =>
    ([PipelineEvent.forwardReturnsComputed, PipelineEvent.factorMerged] ++
      (if groups.isSome then [PipelineEvent.groupMerged] else []) ++
      [PipelineEvent.naDropped], Except.error e)
  | Except.ok q =>
    ([PipelineEvent.forwardReturnsComputed, PipelineEvent.factorMerged] ++
      (if groups.isSome then [PipelineEvent.groupMerged] else []) ++
      [PipelineEvent.naDropped, PipelineEvent.quantized],
      Except.ok ((dropna groups.isSome
        (merged_rows factor prices assets periods filter_zscore groups)).filterMap
        (fun r => (q.find? (fun e => e.1 = (r.date, r.asset))).map
          (fun e => { r with factor_quantile := some e.2 }))))

/-- Source lines 223-391: the pipeline entry point.  The event list records
which computation steps completed before the call returned or raised,
mirroring the source order: timezone check, forward returns (line 349),
factor merge (line 353), group checks and merge (355-380), dropna (382),
quantize (384), quantile merge and final dropna (384-389). -/
def get_clean_factor_and_forward_returns
    (factor : List ((ℕ × Asset) × ℚ)) (tzFactor tzPrices : Option String)
    (prices : List (List ℚ)) (assets : List Asset)
    (groupby : Option GroupBySpec) (by_group : Bool)
    (quantiles bins : Option ℕ) (periods : List ℕ) (filter_zscore : Option ℚ)
    (groupby_labels : Option (List (String × String))) :
    List PipelineEvent × Except PyErr (List MergedRow) :=
  if tzFactor ≠ tzPrices then
    ([], Except.error (PyErr.nonMatchingTimezoneError
      "The timezone of factor is not the same as the timezone of prices"))
  else
    match resolve_groupby factor groupby groupby_labels with
    | Except.error e =>
      ([PipelineEvent.forwardReturnsComputed, PipelineEvent.factorMerged], Except.error e)
    | Except.ok groups =>
      pipeline_after_merge factor prices assets by_group quantiles bins periods
        filter_zscore groups

/-- A two-asset single-date factor. -/
def C3factor : List ((ℕ × Asset) × ℚ) := [((0, "A"), 1), ((0, "B"), 2)]

/-- A 3-date, 2-asset price panel. -/
def C3prices : List (List ℚ) := [[1, 1], [2, 3], [4, 9]]

/-!
# Theorems

Helper lemmas first, then one theorem (with witness or counterexample) per
claim.
-/

/-- Indexing helper: reading a position `i < n` of `(List.range n).map f`
yields `f i`. -/
theorem getD_map_range {α : Type} (n : ℕ) (f : ℕ → α) (d : α) (i : ℕ) (hi : i < n) :
    ((List.range n).map f).getD i d = f i := by
  rw [List.getD_eq_getElem _ _ (by simpa using hi)]
  simp

/-- Reading the asset column at a valid row. -/
theorem assetCol_getD (prices : List (List ℚ)) (ai i : ℕ) (hi : i < prices.length) :
    (assetCol prices ai).getD i 0 = (prices.getD i []).getD ai 0 := by
  unfold assetCol
  rw [List.getD_eq_getElem _ _ (by simpa using hi), List.getD_eq_getElem _ _ hi]
  simp

/-- C1: for a price panel with no missing values and a positive period `p`,
the forward return stored at (date `i`, asset `ai`) equals
`price[i + p] / price[i] - 1` when row `i + p` exists in the panel and is
missing when `i + p` falls outside the panel's date range. -/
theorem compute_forward_returns_correct
    (prices : List (List ℚ)) (ai p i : ℕ) (hp : 1 ≤ p) (hi : i < prices.length) :
    (compute_forward_returns prices ai p none).getD i none =
      if i + p < prices.length then
        some ((prices.getD (i + p) []).getD ai 0 / (prices.getD i []).getD ai 0 - 1)
      else none := by
  have hlen : (assetCol prices ai).length = prices.length := by
    simp [assetCol]
  have hlenp : (pctChange p (assetCol prices ai)).length = prices.length := by
    simp [pctChange, hlen]
  unfold compute_forward_returns shiftNeg
  rw [hlenp, getD_map_range _ _ _ _ (by omega : i < prices.length)]
  by_cases h : i + p < prices.length
  · rw [if_pos h, if_pos h]
    unfold pctChange
    rw [hlen, getD_map_range _ _ _ _ (by omega : i + p < prices.length)]
    rw [if_pos (by omega : p ≤ i + p)]
    have : i + p - p = i := by omega
    rw [this, assetCol_getD _ _ _ h, assetCol_getD _ _ _ hi]
  · rw [if_neg h, if_neg h]

/-- Concrete instance of `compute_forward_returns_correct`: a 3-date,
one-asset panel with prices 1, 2, 4 and period 1. -/
theorem compute_forward_returns_correct_witness :
    1 ≤ 1 ∧ 0 < ([[(1 : ℚ)], [2], [4]] : List (List ℚ)).length ∧
      (compute_forward_returns [[(1 : ℚ)], [2], [4]] 0 1 none).getD 0 none =
        if 0 + 1 < ([[(1 : ℚ)], [2], [4]] : List (List ℚ)).length then
          some ((([[(1 : ℚ)], [2], [4]] : List (List ℚ)).getD (0 + 1) []).getD 0 0 /
            (([[(1 : ℚ)], [2], [4]] : List (List ℚ)).getD 0 []).getD 0 0 - 1)
        else none :=
  ⟨by decide, by decide,
    compute_forward_returns_correct [[(1 : ℚ)], [2], [4]] 0 1 0 (by decide) (by decide)⟩

/-- C4 counterexample: with a non-null format string and a renderer that
raises, `print_table` exits by the error path with the global option still
overridden (`some "fmt"`), not restored to its prior value (`none`).  This
refutes the claim that the option is restored on every exit path. -/
theorem print_table_not_restored :
    (print_table (some "fmt") true ⟨none⟩).1 = ⟨some "fmt"⟩ ∧
      (print_table (some "fmt") true ⟨none⟩).2 = Except.error () ∧
      (⟨some "fmt"⟩ : DisplayOptions) ≠ ⟨none⟩ := by
  refine ⟨rfl, rfl, by decide⟩

/-- C4 (amended): `print_table` restores the global float-format option on
every exit path on which the renderer returns normally, and when `fmt` is
null it never touches the option even if the renderer raises; but (per the
counterexample) a raising renderer with a non-null `fmt` leaves the option
overridden. -/
theorem print_table_restores (fmt : Option String) (opts : DisplayOptions) :
    (print_table fmt false opts).1 = opts ∧ (print_table none true opts).1 = opts := by
  obtain ⟨ff⟩ := opts
  constructor
  · cases fmt <;> simp [print_table]
  · simp [print_table]


/-- C6: `quantize_factor` (the decorated bucketer) intercepts exactly the
ValueErrors whose message contains the bin-edges text: for those it prints
the extended diagnostic — which lists the four numbered remedies — and
re-raises the original error object unchanged; every other outcome (success,
other ValueErrors, non-ValueError exceptions) passes through unchanged with
nothing printed. -/
theorem quantize_factor_diagnostic (rows : List MergedRow) (quantiles bins : Option ℕ)
    (by_group : Bool) (r : Except PyErr (List ((ℕ × Asset) × ℕ)))
    (hr : quantizeGroups rows quantiles bins by_group
        ((rows.map (quantizeKey by_group)).dedup) = r) :
    (quantize_factor rows quantiles bins by_group).2 = r ∧
    ((∃ msg, r = Except.error (PyErr.valueError msg) ∧ strContains msg binEdgesMsg = true) →
      (quantize_factor rows quantiles bins by_group).1 = [binEdgesDiag]) ∧
    ((∀ msg, r = Except.error (PyErr.valueError msg) → strContains msg binEdgesMsg = false) →
      (quantize_factor rows quantiles bins by_group).1 = []) ∧
    strContains binEdgesDiag "1 - " = true ∧ strContains binEdgesDiag "2 - " = true ∧
    strContains binEdgesDiag "3 - " = true ∧ strContains binEdgesDiag "4 - " = true := by
  unfold quantize_factor
  rw [hr]
  refine ⟨?_, ?_, ?_, by decide, by decide, by decide, by decide⟩
  · cases r with
    | ok a => rfl
    | error e =>
      cases e with
      | valueError msg =>
        by_cases hm : strContains msg binEdgesMsg <;>
          simp [non_unique_bin_edges_error, hm]
      | keyErrorAssets a => rfl
      | keyErrorGroups a => rfl
      | nonMatchingTimezoneError a => rfl
  · rintro ⟨msg, hmsg, hc⟩
    subst hmsg
    simp [non_unique_bin_edges_error, hc]
  · intro h
    cases r with
    | ok a => rfl
    | error e =>
      cases e with
      | valueError msg => simp [non_unique_bin_edges_error, h msg rfl]
      | keyErrorAssets a => rfl
      | keyErrorGroups a => rfl
      | nonMatchingTimezoneError a => rfl

/-- Evaluation fact used by the C6 witness and the C2 counterexample: on the
degenerate rows the undecorated bucketer raises the bin-edges ValueError. -/
theorem quantizeGroups_degenerate :
    quantizeGroups degenerateRows (some 2) none false
        ((degenerateRows.map (quantizeKey false)).dedup) =
      Except.error (PyErr.valueError binEdgesMsg) := by
  have hkeys : (degenerateRows.map (quantizeKey false)).dedup = [(0, none)] := by decide
  have hvals : ((degenerateRows.filter
      (fun r => quantizeKey false r = (0, none))).map (fun r => r.factor.getD 0)) = [1, 1, 2] := by
    decide
  have hedges : qEdges (sortedVals [1, 1, 2]) 2 = [1, 1, 2] := by
    have hs : sortedVals [1, 1, 2] = [1, 1, 2] := by decide
    rw [hs]
    norm_num [qEdges, qEdge, List.getD, List.range_succ]
  have hqcut : qcut [1, 1, 2] 2 = Except.error (PyErr.valueError binEdgesMsg) := by
    unfold qcut
    rw [hedges]
    simp
  have hqc : quantile_calc [1, 1, 2] (some 2) none =
      Except.error (PyErr.valueError binEdgesMsg) := by
    simp [quantile_calc, hqcut, Except.map]
  rw [hkeys]
  unfold quantizeGroups
  rw [hvals, hqc]

/-- Concrete instance of `quantize_factor_diagnostic`: on the degenerate rows
the inner bucketer raises the matching ValueError and the decorated
`quantize_factor` prints the diagnostic. -/
theorem quantize_factor_diagnostic_witness :
    quantizeGroups degenerateRows (some 2) none false
        ((degenerateRows.map (quantizeKey false)).dedup) =
      Except.error (PyErr.valueError binEdgesMsg) ∧
    (quantize_factor degenerateRows (some 2) none false).1 = [binEdgesDiag] :=
  ⟨quantizeGroups_degenerate,
    (quantize_factor_diagnostic degenerateRows (some 2) none false _
      quantizeGroups_degenerate).2.1 ⟨binEdgesMsg, rfl, by decide⟩⟩

/-- Mapping a total function under `Option.map` commutes with dropping the
missing values. -/
theorem someVals_map_optionMap (l : List (Option ℚ)) (f : ℚ → ℚ) :
    someVals (l.map (Option.map f)) = (someVals l).map f := by
  unfold someVals
  rw [List.filterMap_map, List.map_filterMap]
  rfl

/-- Sum of a list after subtracting a constant from each element. -/
theorem sum_map_sub (l : List ℚ) (m : ℚ) :
    (l.map (fun x => x - m)).sum = l.sum - l.length * m := by
  induction l with
  | nil => simp
  | cons a t ih => simp [ih]; ring

/-- C7: after `demean_forward_returns`, for every group `g` the skipna sum of
any forward-return column `c` over the rows of `g` is exactly zero, the
result has the same number of rows and the same columns as the input (and
the input itself, being a value of a pure embedding mirroring the source's
`.copy()`, is never mutated). -/
theorem demean_forward_returns_spec (t : DTable) (g c : String)
    (hc : c ∈ get_forward_returns_columns t.columns) :
    groupColSum (demean_forward_returns t) g c = 0 ∧
    (demean_forward_returns t).rows.length = t.rows.length ∧
    (demean_forward_returns t).columns = t.columns := by
  refine ⟨?_, by simp [demean_forward_returns], rfl⟩
  unfold groupColSum demean_forward_returns
  simp only
  rw [List.filter_map]
  have hfil : (List.filter ((fun r : String × (String → Option ℚ) => decide (r.1 = g)) ∘
      (fun r : String × (String → Option ℚ) =>
        ((r.1, fun cc => if cc ∈ get_forward_returns_columns t.columns
          then (r.2 cc).map (fun v => v - groupColMean t r.1 cc) else r.2 cc)))) t.rows)
      = t.rows.filter (fun r => r.1 = g) := rfl
  rw [hfil]
  rw [List.map_map]
  have hmap : ((t.rows.filter (fun r => r.1 = g)).map ((fun r : String × (String → Option ℚ) => r.2 c) ∘
      (fun r : String × (String → Option ℚ) =>
        ((r.1, fun cc => if cc ∈ get_forward_returns_columns t.columns
          then (r.2 cc).map (fun v => v - groupColMean t r.1 cc) else r.2 cc)))))
      = ((t.rows.filter (fun r => r.1 = g)).map (fun r => (r.2 c).map (fun v => v - groupColMean t g c))) := by
    apply List.map_congr_left
    intro r hr
    have hg : r.1 = g := by
      have := List.mem_filter.mp hr
      simpa using this.2
    simp [hc, hg]
  rw [hmap]
  have : ((t.rows.filter (fun r => r.1 = g)).map (fun r => (r.2 c).map (fun v => v - groupColMean t g c)))
      = ((t.rows.filter (fun r => r.1 = g)).map (fun r => r.2 c)).map (Option.map (fun v => v - groupColMean t g c)) := by
    rw [List.map_map]
    rfl
  rw [this, someVals_map_optionMap, sum_map_sub]
  set vs := someVals ((t.rows.filter (fun r => r.1 = g)).map (fun r => r.2 c)) with hvs
  have hm : groupColMean t g c = vs.sum / vs.length := rfl
  rw [hm]
  by_cases hn : vs.length = 0
  · rw [hn]
    rw [List.length_eq_zero.mp hn]
    simp
  · have : (vs.length : ℚ) ≠ 0 := by
      exact_mod_cast hn
    field_simp

/-- Concrete instance of `demean_forward_returns_spec`: a two-row table with
one period column named 1 holding values 2 and 4 in a single group. -/
theorem demean_forward_returns_spec_witness :
    "1" ∈ get_forward_returns_columns ["1", "factor"] ∧
    groupColSum (demean_forward_returns
      ⟨["1", "factor"],
        [("0", fun c => if c = "1" then some 2 else some 5),
         ("0", fun c => if c = "1" then some 4 else some 7)]⟩) "0" "1" = 0 :=
  ⟨by decide,
    (demean_forward_returns_spec
      ⟨["1", "factor"],
        [("0", fun c => if c = "1" then some 2 else some 5),
         ("0", fun c => if c = "1" then some 4 else some 7)]⟩ "0" "1" (by decide)).1⟩

/-- C9: the extracted window is clipped at the panel boundaries with no
wraparound and no error: offset 0 belongs to the window and corresponds to
the event position, every window element pairs a valid panel row with its
offset relative to the event, offsets stay within [-before, after], and the
earliest offset is `-(min before dayZero)` — in particular 0, not `-before`,
for an event at the panel's first index. -/
theorem common_start_window_clipped (n dayZero before after : ℕ) (h : dayZero < n) :
    ((0 : ℤ), dayZero) ∈ common_start_window n dayZero before after ∧
    (∀ pr ∈ common_start_window n dayZero before after,
        pr.1 = (pr.2 : ℤ) - (dayZero : ℤ) ∧ pr.2 < n ∧
        -(before : ℤ) ≤ pr.1 ∧ pr.1 ≤ (after : ℤ)) ∧
    (common_start_window n dayZero before after).head? =
      some (-((min before dayZero : ℕ) : ℤ), dayZero - before) := by
  unfold common_start_window
  refine ⟨?_, ?_, ?_⟩
  · refine List.mem_map.mpr ⟨dayZero, ?_, by simp⟩
    refine List.mem_range'_1.mpr ⟨by omega, by omega⟩
  · intro pr hpr
    obtain ⟨idx, hidx, hf⟩ := List.mem_map.mp hpr
    obtain ⟨h1, h2⟩ := List.mem_range'_1.mp hidx
    subst hf
    refine ⟨rfl, by omega, by simp; omega, by simp; omega⟩
  · have hlen : min (dayZero + after + 1) n - (dayZero - before) =
        (min (dayZero + after + 1) n - (dayZero - before) - 1) + 1 := by omega
    rw [hlen, List.range'_succ]
    simp
    omega

/-- Concrete instance of `common_start_window_clipped`: `before = 2`,
`after = 3` for an event at position 0 of a 4-row panel gives earliest
offset 0. -/
theorem common_start_window_clipped_witness :
    0 < 4 ∧
    ((0 : ℤ), (0 : ℕ)) ∈ common_start_window 4 0 2 3 ∧
    (common_start_window 4 0 2 3).head? = some (-((min 2 0 : ℕ) : ℤ), 0 - 2) :=
  ⟨by decide, (common_start_window_clipped 4 0 2 3 (by decide)).1,
    (common_start_window_clipped 4 0 2 3 (by decide)).2.2⟩

/-- C10: when no event date of the factor table occurs in the price index
(including the empty factor table), every date is skipped, nothing is
collected, and `common_start_returns` raises the concat ValueError instead
of returning an empty table. -/
theorem common_start_returns_all_unresolvable
    (factor : List (ℕ × Asset)) (pricesIndex : List ℕ) (before after : ℕ)
    (h : ∀ d ∈ factor.map (fun e => e.1), d ∉ pricesIndex) :
    common_start_returns factor pricesIndex before after =
      Except.error (PyErr.valueError "No objects to concatenate") := by
  unfold common_start_returns
  have hnil : ((factor.map (fun e => e.1)).dedup).filterMap (fun d =>
      match pricesIndex.findIdx? (fun x => x = d) with
      | none => none
      | some i => some (d, common_start_window pricesIndex.length i before after)) = [] := by
    rw [List.filterMap_eq_nil_iff]
    intro d hd
    have hmem : d ∈ factor.map (fun e => e.1) := List.mem_dedup.mp hd
    have hno : pricesIndex.findIdx? (fun x => x = d) = none := by
      rw [List.findIdx?_eq_none_iff]
      intro x hx
      by_contra hcon
      simp at hcon
      exact (h d hmem) (hcon ▸ hx)
    rw [hno]
  rw [hnil]
  rfl

/-- Concrete instance of `common_start_returns_all_unresolvable`: one event
at date 5 against a price index 1, 2, 3. -/
theorem common_start_returns_all_unresolvable_witness :
    (∀ d ∈ ([(5, "A")] : List (ℕ × Asset)).map (fun e => e.1), d ∉ ([1, 2, 3] : List ℕ)) ∧
    common_start_returns [(5, "A")] [1, 2, 3] 2 3 =
      Except.error (PyErr.valueError "No objects to concatenate") :=
  ⟨by decide, common_start_returns_all_unresolvable [(5, "A")] [1, 2, 3] 2 3 (by decide)⟩

/-- Reading a mapped optional column at any position commutes with the
per-cell bind. -/
theorem getD_map_optionBind (col : List (Option ℚ)) (f : ℚ → Option ℚ) (i : ℕ) :
    (col.map (fun o => o.bind f)).getD i none = (col.getD i none).bind f := by
  by_cases h : i < col.length
  · rw [List.getD_eq_getElem _ _ (by simpa using h), List.getD_eq_getElem _ _ h]
    simp
  · rw [List.getD_eq_default _ _ (by simpa using not_lt.mp h),
      List.getD_eq_default _ _ (not_lt.mp h)]
    rfl

/-- C8 (amended): with a z-score threshold, filtering happens per asset
column of the wide delta frame: whenever the column has at least two
observations, every value that survives in the period column for asset `ai`
satisfies `(v - mean)^2 <= z^2 * var` — equivalently `|v - mean| <= z * std`
for the nonnegative thresholds the interface admits — where mean and
variance are those of asset `ai`'s own pre-filter delta column, and every
value violating that bound is set to missing. -/
theorem compute_forward_returns_zscore_bound
    (prices : List (List ℚ)) (ai p i : ℕ) (z : ℚ)
    (hn : 2 ≤ (someVals (shiftNeg p (pctChange p (assetCol prices ai)))).length) :
    (∀ v, (compute_forward_returns prices ai p (some z)).getD i none = some v →
      (v - colMean (shiftNeg p (pctChange p (assetCol prices ai)))) ^ 2
        ≤ z ^ 2 * colVar (shiftNeg p (pctChange p (assetCol prices ai)))) ∧
    (∀ w, (shiftNeg p (pctChange p (assetCol prices ai))).getD i none = some w →
      z ^ 2 * colVar (shiftNeg p (pctChange p (assetCol prices ai)))
        < (w - colMean (shiftNeg p (pctChange p (assetCol prices ai)))) ^ 2 →
      (compute_forward_returns prices ai p (some z)).getD i none = none) := by
  have hcompute : (compute_forward_returns prices ai p (some z)).getD i none =
      ((shiftNeg p (pctChange p (assetCol prices ai))).getD i none).bind (fun v =>
        if z ^ 2 * colVar (shiftNeg p (pctChange p (assetCol prices ai)))
            < (v - colMean (shiftNeg p (pctChange p (assetCol prices ai)))) ^ 2
          then none else some v) := by
    show (zscoreFilter z (shiftNeg p (pctChange p (assetCol prices ai)))).getD i none = _
    unfold zscoreFilter
    rw [if_pos hn, getD_map_optionBind]
  constructor
  · intro v hv
    rw [hcompute] at hv
    cases hd : (shiftNeg p (pctChange p (assetCol prices ai))).getD i none with
    | none => rw [hd] at hv; exact absurd hv (by simp)
    | some w =>
      rw [hd] at hv
      replace hv : (if z ^ 2 * colVar (shiftNeg p (pctChange p (assetCol prices ai)))
            < (w - colMean (shiftNeg p (pctChange p (assetCol prices ai)))) ^ 2
          then none else some w) = some v := hv
      by_cases hgt : z ^ 2 * colVar (shiftNeg p (pctChange p (assetCol prices ai)))
          < (w - colMean (shiftNeg p (pctChange p (assetCol prices ai)))) ^ 2
      · rw [if_pos hgt] at hv
        exact absurd hv (by simp)
      · rw [if_neg hgt] at hv
        cases hv
        exact not_lt.mp hgt
  · intro w hw hgt
    rw [hcompute, hw]
    show (if z ^ 2 * colVar (shiftNeg p (pctChange p (assetCol prices ai)))
        < (w - colMean (shiftNeg p (pctChange p (assetCol prices ai)))) ^ 2
      then none else some w) = none
    rw [if_pos hgt]

/-- Concrete instance of `compute_forward_returns_zscore_bound`: a constant
one-asset panel, period 1, threshold 1. -/
theorem compute_forward_returns_zscore_bound_witness :
    2 ≤ (someVals (shiftNeg 1 (pctChange 1 (assetCol [[(1:ℚ)], [1], [1], [1], [1]] 0)))).length ∧
    (∀ v, (compute_forward_returns [[(1:ℚ)], [1], [1], [1], [1]] 0 1 (some 1)).getD 0 none = some v →
      (v - colMean (shiftNeg 1 (pctChange 1 (assetCol [[(1:ℚ)], [1], [1], [1], [1]] 0)))) ^ 2
        ≤ 1 ^ 2 * colVar (shiftNeg 1 (pctChange 1 (assetCol [[(1:ℚ)], [1], [1], [1], [1]] 0)))) := by
  have hn : 2 ≤ (someVals (shiftNeg 1 (pctChange 1 (assetCol [[(1:ℚ)], [1], [1], [1], [1]] 0)))).length := by
    norm_num [shiftNeg, pctChange, assetCol, someVals, List.range_succ, List.getD,
      List.filterMap_cons]
  exact ⟨hn, (compute_forward_returns_zscore_bound [[(1:ℚ)], [1], [1], [1], [1]] 0 1 0 1 hn).1⟩

/-- C8 counterexample: the claim reads mean/std over the period column of
the output table (pooled across assets).  On `pooledPrices` with threshold 1,
the value 1/2 of asset 1 at date 0 survives filtering (it is within one
per-asset standard deviation), yet it violates the pooled-column bound:
`1^2 * var(pooled) = 1/7 < (1/2 - mean(pooled))^2 = 1/4`.  Squared forms are
equivalent to the |v - mean| <= z * std forms for the nonnegative threshold
1.  So a surviving value fails the claimed bound, refuting the claim as
stated. -/
theorem zscore_pooled_counterexample :
    (compute_forward_returns pooledPrices 1 1 (some 1)).getD 0 none = some (1/2) ∧
    (1 : ℚ) ^ 2 * colVar (stacked_period_column pooledPrices 2 1 none)
      < ((1/2 : ℚ) - colMean (stacked_period_column pooledPrices 2 1 none)) ^ 2 := by
  have hB : shiftNeg 1 (pctChange 1 (assetCol pooledPrices 1)) =
      [some (1/2), some (-(1/2)), some (1/2), some (-(1/2)), none] := by
    norm_num [shiftNeg, pctChange, assetCol, pooledPrices, List.range_succ, List.getD]
  have hA : shiftNeg 1 (pctChange 1 (assetCol pooledPrices 0)) =
      [some 0, some 0, some 0, some 0, none] := by
    norm_num [shiftNeg, pctChange, assetCol, pooledPrices, List.range_succ, List.getD]
  constructor
  · show (zscoreFilter 1 (shiftNeg 1 (pctChange 1 (assetCol pooledPrices 1)))).getD 0 none = some (1/2)
    rw [hB]
    norm_num [zscoreFilter, someVals, colMean, colVar, List.getD, List.filterMap_cons]
  · have hstack : stacked_period_column pooledPrices 2 1 none =
        [some 0, some (1/2), some 0, some (-(1/2)), some 0, some (1/2),
         some 0, some (-(1/2)), none, none] := by
      unfold stacked_period_column
      simp only [compute_forward_returns]
      have hlen : pooledPrices.length = 5 := rfl
      norm_num [hlen, List.range_succ, hA, hB, List.getD]
    rw [hstack]
    norm_num [colMean, colVar, someVals, List.getD, List.filterMap_cons]



theorem sortedVals_perm (x : List ℚ) : List.Perm (sortedVals x) x :=
  List.perm_insertionSort _ x

theorem sortedVals_length (x : List ℚ) : (sortedVals x).length = x.length :=
  (sortedVals_perm x).length_eq

theorem sortedVals_sorted_lt (x : List ℚ) (h : x.Nodup) :
    List.Sorted (· < ·) (sortedVals x) :=
  (List.sorted_insertionSort _ x).lt_of_le ((sortedVals_perm x).nodup_iff.mpr h)

theorem sorted_getD_lt (s : List ℚ) (hs : List.Sorted (· < ·) s) (i j : ℕ)
    (hij : i < j) (hj : j < s.length) : s.getD i 0 < s.getD j 0 := by
  rw [s.getD_eq_getElem 0 (by omega), s.getD_eq_getElem 0 hj]
  exact List.Sorted.get_strictMono hs (by simpa using hij)

theorem sorted_getD_le (s : List ℚ) (hs : List.Sorted (· < ·) s) (i j : ℕ)
    (hij : i ≤ j) (hj : j < s.length) : s.getD i 0 ≤ s.getD j 0 := by
  rcases Nat.eq_or_lt_of_le hij with h | h
  · rw [h]
  · exact le_of_lt (sorted_getD_lt s hs i j h hj)

theorem mIdx_lt (N k j : ℕ) (hN : 1 ≤ N) (hj : j < k) : N * j / k < N := by
  rw [Nat.div_lt_iff_lt_mul (by omega)]
  exact Nat.mul_lt_mul_of_le_of_lt (le_refl N) hj hN

theorem mIdx_mono (N k j1 j2 : ℕ) (h : j1 ≤ j2) : N * j1 / k ≤ N * j2 / k :=
  Nat.div_le_div_right (Nat.mul_le_mul_left N h)

theorem div_diff_lower (A N k : ℕ) (hk : 0 < k) : A / k + N / k ≤ (A + N) / k := by
  rw [Nat.le_div_iff_mul_le hk, add_mul]
  exact Nat.add_le_add (Nat.div_mul_le_self A k) (Nat.div_mul_le_self N k)

theorem div_diff_upper (A N k : ℕ) (hk : 0 < k) : (A + N) / k ≤ A / k + N / k + 1 := by
  have e1 := Nat.div_add_mod A k
  have e2 := Nat.div_add_mod N k
  have m1 := Nat.mod_lt A hk
  have m2 := Nat.mod_lt N hk
  have h1 : A < (A / k + 1) * k := by
    calc A = k * (A / k) + A % k := e1.symm
    _ < k * (A / k) + k := by omega
    _ = (A / k + 1) * k := by ring
  have h2 : N < (N / k + 1) * k := by
    calc N = k * (N / k) + N % k := e2.symm
    _ < k * (N / k) + k := by omega
    _ = (N / k + 1) * k := by ring
  have h3 : (A + N) / k < A / k + N / k + 2 := by
    rw [Nat.div_lt_iff_lt_mul hk]
    calc A + N < (A / k + 1) * k + (N / k + 1) * k := by omega
    _ = (A / k + N / k + 2) * k := by ring
  omega

theorem qEdge_zero (s : List ℚ) (k : ℕ) : qEdge s k 0 = s.getD 0 0 := by
  unfold qEdge
  simp

theorem qEdge_last (s : List ℚ) (k : ℕ) (hk : 1 ≤ k) :
    qEdge s k k = s.getD (s.length - 1) 0 := by
  unfold qEdge
  rw [Nat.mul_div_cancel _ (by omega), Nat.mul_mod_left]
  simp

/-- Lower bound for an interior edge: the edge sits at or above the order
statistic at its integer position. -/
theorem qEdge_lower (s : List ℚ) (k j : ℕ) (hs : List.Sorted (· < ·) s)
    (h2 : 2 ≤ s.length) (hj1 : 1 ≤ j) (hjk : j < k) :
    s.getD ((s.length - 1) * j / k) 0 ≤ qEdge s k j := by
  have hm : (s.length - 1) * j / k < s.length - 1 := mIdx_lt _ _ _ (by omega) hjk
  have hd : s.getD ((s.length - 1) * j / k) 0 < s.getD ((s.length - 1) * j / k + 1) 0 :=
    sorted_getD_lt s hs _ _ (by omega) (by omega)
  have hfrac : (0 : ℚ) ≤ (((s.length - 1) * j % k : ℕ) : ℚ) / (k : ℚ) := by positivity
  unfold qEdge
  nlinarith

/-- Upper bound for an interior edge: the edge sits strictly below the next
order statistic. -/
theorem qEdge_upper (s : List ℚ) (k j : ℕ) (hs : List.Sorted (· < ·) s)
    (h2 : 2 ≤ s.length) (hj1 : 1 ≤ j) (hjk : j < k) :
    qEdge s k j < s.getD ((s.length - 1) * j / k + 1) 0 := by
  have hm : (s.length - 1) * j / k < s.length - 1 := mIdx_lt _ _ _ (by omega) hjk
  have hd : s.getD ((s.length - 1) * j / k) 0 < s.getD ((s.length - 1) * j / k + 1) 0 :=
    sorted_getD_lt s hs _ _ (by omega) (by omega)
  have hfrac : (((s.length - 1) * j % k : ℕ) : ℚ) / (k : ℚ) < 1 := by
    rw [div_lt_one (by exact_mod_cast (by omega : 0 < k))]
    exact_mod_cast Nat.mod_lt _ (by omega)
  have hfrac0 : (0 : ℚ) ≤ (((s.length - 1) * j % k : ℕ) : ℚ) / (k : ℚ) := by positivity
  unfold qEdge
  nlinarith



/-- Consecutive quantile edges are strictly increasing when the data has at
least two pairwise distinct sorted values. -/
theorem qEdge_succ_lt (s : List ℚ) (k j : ℕ) (hs : List.Sorted (· < ·) s)
    (h2 : 2 ≤ s.length) (hk : 1 ≤ k) (hj : j < k) :
    qEdge s k j < qEdge s k (j + 1) := by
  have hN : 1 ≤ s.length - 1 := by omega
  have hkq : (0 : ℚ) < (k : ℚ) := by exact_mod_cast (by omega : 0 < k)
  have hNq : (0 : ℚ) < ((s.length - 1 : ℕ) : ℚ) := by exact_mod_cast hN
  rcases Nat.eq_zero_or_pos j with hj0 | hj1
  · subst hj0
    simp only [Nat.zero_add]
    rw [qEdge_zero]
    rcases Nat.eq_or_lt_of_le (by omega : 1 ≤ k) with hk1 | hk2
    · have hkk : k = 1 := hk1.symm
      subst hkk
      rw [show (1 : ℕ) = 1 from rfl, qEdge_last s 1 (by omega)]
      exact sorted_getD_lt s hs 0 (s.length - 1) (by omega) (by omega)
    · rcases Nat.eq_zero_or_pos ((s.length - 1) * 1 / k) with hm | hm
      · have hNk : s.length - 1 < k := by
          by_contra hc
          push_neg at hc
          have : 1 ≤ (s.length - 1) * 1 / k :=
            (Nat.le_div_iff_mul_le (by omega)).mpr (by omega)
          omega
        have hmod : (s.length - 1) * 1 % k = s.length - 1 := by
          rw [mul_one]
          exact Nat.mod_eq_of_lt hNk
        have hd : s.getD 0 0 < s.getD 1 0 := sorted_getD_lt s hs 0 1 (by omega) (by omega)
        have hfrac : (0 : ℚ) < (((s.length - 1) * 1 % k : ℕ) : ℚ) / (k : ℚ) := by
          rw [hmod]
          positivity
        unfold qEdge
        rw [hm]
        nlinarith
      · calc s.getD 0 0 < s.getD ((s.length - 1) * 1 / k) 0 := by
              apply sorted_getD_lt s hs 0 _ hm
              have := mIdx_lt (s.length - 1) k 1 hN hk2
              omega
        _ ≤ qEdge s k 1 := qEdge_lower s k 1 hs h2 (by omega) hk2
  · rcases Nat.eq_or_lt_of_le (by omega : j + 1 ≤ k) with hk1 | hk2
    · rw [hk1, qEdge_last s k hk]
      calc qEdge s k j < s.getD ((s.length - 1) * j / k + 1) 0 :=
            qEdge_upper s k j hs h2 hj1 hj
      _ ≤ s.getD (s.length - 1) 0 := by
            apply sorted_getD_le s hs _ _ _ (by omega)
            have := mIdx_lt (s.length - 1) k j hN hj
            omega
    · have hmle : (s.length - 1) * j / k ≤ (s.length - 1) * (j + 1) / k :=
        mIdx_mono _ _ _ _ (by omega)
      rcases Nat.eq_or_lt_of_le hmle with hm | hm
      · have e1 := Nat.div_add_mod ((s.length - 1) * j) k
        have e2 := Nat.div_add_mod ((s.length - 1) * (j + 1)) k
        have hmul : (s.length - 1) * (j + 1) = (s.length - 1) * j + (s.length - 1) := by ring
        have e2h : k * ((s.length - 1) * j / k) + (s.length - 1) * (j + 1) % k =
            (s.length - 1) * j + (s.length - 1) := by
          rw [hm, e2]
          exact hmul
        have hr : (s.length - 1) * (j + 1) % k = (s.length - 1) * j % k + (s.length - 1) := by
          have key : ∀ P r1 r2 a b : ℕ, P + r1 = a → P + r2 = a + b → r2 = r1 + b := by
            intro P r1 r2 a b h1 h2
            omega
          exact key _ _ _ _ _ e1 e2h
        have hmlt : (s.length - 1) * j / k < s.length - 1 := mIdx_lt _ _ _ hN hj
        have hd : s.getD ((s.length - 1) * j / k) 0 < s.getD ((s.length - 1) * j / k + 1) 0 :=
          sorted_getD_lt s hs _ _ (by omega) (by omega)
        have hdivpos : (0 : ℚ) < ((s.length - 1 : ℕ) : ℚ) / (k : ℚ) := div_pos hNq hkq
        have hcast : (((s.length - 1) * j % k + (s.length - 1) : ℕ) : ℚ) =
            (((s.length - 1) * j % k : ℕ) : ℚ) + ((s.length - 1 : ℕ) : ℚ) := by
          push_cast
          ring
        unfold qEdge
        rw [← hm, hr, hcast, add_div]
        nlinarith
      · calc qEdge s k j < s.getD ((s.length - 1) * j / k + 1) 0 :=
              qEdge_upper s k j hs h2 hj1 hj
        _ ≤ s.getD ((s.length - 1) * (j + 1) / k) 0 := by
              apply sorted_getD_le s hs _ _ (by omega)
              have := mIdx_lt (s.length - 1) k (j + 1) hN hk2
              omega
        _ ≤ qEdge s k (j + 1) := qEdge_lower s k (j + 1) hs h2 (by omega) hk2



/-- Strict monotonicity of the quantile edges. -/
theorem qEdge_lt (s : List ℚ) (k : ℕ) (hs : List.Sorted (· < ·) s)
    (h2 : 2 ≤ s.length) (hk : 1 ≤ k) (j1 j2 : ℕ) (h12 : j1 < j2) (hj2 : j2 ≤ k) :
    qEdge s k j1 < qEdge s k j2 := by
  induction j2 with
  | zero => omega
  | succ m ih =>
    rcases Nat.lt_succ_iff_lt_or_eq.mp h12 with h | h
    · exact lt_trans (ih h (by omega)) (qEdge_succ_lt s k m hs h2 hk (by omega))
    · subst h
      exact qEdge_succ_lt s k j1 hs h2 hk (by omega)

/-- Monotonicity of the quantile edges. -/
theorem qEdge_le (s : List ℚ) (k : ℕ) (hs : List.Sorted (· < ·) s)
    (h2 : 2 ≤ s.length) (hk : 1 ≤ k) (j1 j2 : ℕ) (h12 : j1 ≤ j2) (hj2 : j2 ≤ k) :
    qEdge s k j1 ≤ qEdge s k j2 := by
  rcases Nat.eq_or_lt_of_le h12 with h | h
  · rw [h]
  · exact le_of_lt (qEdge_lt s k hs h2 hk j1 j2 h hj2)

/-- With at least two pairwise distinct values the quantile edges are all
distinct, so `qcut` succeeds. -/
theorem qEdges_nodup (x : List ℚ) (k : ℕ) (hk : 1 ≤ k) (h2 : 2 ≤ x.length)
    (hx : x.Nodup) : (qEdges (sortedVals x) k).Nodup := by
  have hs := sortedVals_sorted_lt x hx
  have hlen : 2 ≤ (sortedVals x).length := by rw [sortedVals_length]; exact h2
  unfold qEdges
  show List.Pairwise (fun a b => a ≠ b) _
  rw [List.pairwise_map]
  rw [List.pairwise_iff_get]
  intro i j hij
  rw [List.get_range, List.get_range]
  apply ne_of_lt
  apply qEdge_lt _ _ hs hlen hk
  · exact hij
  · have := j.isLt
    simp only [List.length_range] at this
    omega

/-- On at least two pairwise distinct values, `qcut` returns the labels. -/
theorem qcut_eq_ok (x : List ℚ) (k : ℕ) (hk : 1 ≤ k) (h2 : 2 ≤ x.length)
    (hx : x.Nodup) :
    qcut x k = Except.ok (x.map (qcutLabel (sortedVals x) k)) := by
  unfold qcut
  rw [if_pos (qEdges_nodup x k hk h2 hx)]

/-- Counting values at most `t` in a nondecreasing list whose position `m`
is at most `t` while position `m + 1` (when it exists) exceeds `t`. -/
theorem countP_le_sorted (s : List ℚ) (hs : List.Sorted (· ≤ ·) s) (t : ℚ) (m : ℕ)
    (hm : m < s.length) (h1 : s.getD m 0 ≤ t)
    (h2 : ∀ _ : m + 1 < s.length, t < s.getD (m + 1) 0) :
    s.countP (fun v => decide (v ≤ t)) = m + 1 := by
  induction s generalizing m with
  | nil => simp at hm
  | cons a tl ih =>
    rw [List.sorted_cons] at hs
    cases m with
    | zero =>
      have ha : a ≤ t := by simpa using h1
      have htl : tl.countP (fun v => decide (v ≤ t)) = 0 := by
        cases tl with
        | nil => rfl
        | cons b tb =>
          have hb : t < b := by
            have := h2 (by simp)
            simpa using this
          rw [List.countP_eq_zero]
          intro x hx
          have hbx : b ≤ x := by
            rcases List.mem_cons.mp hx with hx1 | hx1
            · rw [hx1]
            · exact (List.sorted_cons.mp hs.2).1 x hx1
          simp only [decide_eq_true_eq]
          intro hxle
          exact absurd (lt_of_lt_of_le hb (le_trans hbx hxle)) (lt_irrefl t)
      rw [List.countP_cons, htl, decide_eq_true ha]
      rfl
    | succ m' =>
      have hm' : m' < tl.length := by simpa using hm
      have h1' : tl.getD m' 0 ≤ t := by simpa using h1
      have h2' : ∀ _ : m' + 1 < tl.length, t < tl.getD (m' + 1) 0 := by
        intro hlt
        have := h2 (by simpa using Nat.succ_lt_succ hlt)
        simpa using this
      have ha : a ≤ t := by
        have hmem : tl.getD m' 0 ∈ tl := by
          rw [tl.getD_eq_getElem 0 hm']
          exact List.getElem_mem hm'
        exact le_trans (hs.1 _ hmem) h1'
      rw [List.countP_cons, decide_eq_true ha, ih hs.2 m' hm' h1' h2']
      rfl

/-- Splitting a count at a middle bound: values in `(a, t]` together with
values at most `a` are the values at most `t`. -/
theorem countP_between (l : List ℚ) (a t : ℚ) (hat : a ≤ t) :
    l.countP (fun v => decide (a < v) && decide (v ≤ t)) +
      l.countP (fun v => decide (v ≤ a)) = l.countP (fun v => decide (v ≤ t)) := by
  induction l with
  | nil => rfl
  | cons x xs ih =>
    rw [List.countP_cons, List.countP_cons, List.countP_cons]
    rcases le_or_lt x a with hxa | hax
    · have e1 : (decide (a < x) && decide (x ≤ t)) = false := by
        simp [not_lt.mpr hxa]
      rw [e1, decide_eq_true hxa, decide_eq_true (le_trans hxa hat)]
      simp only [if_true, if_false, Bool.false_eq_true]
      omega
    · rcases le_or_lt x t with hxt | htx
      · have e1 : (decide (a < x) && decide (x ≤ t)) = true := by
          simp [hax, hxt]
        rw [e1, decide_eq_true hxt, decide_eq_false (not_le.mpr hax)]
        simp only [if_true, if_false, Bool.false_eq_true]
        omega
      · have e1 : (decide (a < x) && decide (x ≤ t)) = false := by
          simp [not_le.mpr htx]
        rw [e1, decide_eq_false (not_le.mpr htx),
          decide_eq_false (not_le.mpr (lt_of_le_of_lt hat htx))]
        simp only [if_true, if_false, Bool.false_eq_true]
        omega

/-- Counting values above `t` is the complement of counting values at most
`t`. -/
theorem countP_gt (l : List ℚ) (t : ℚ) :
    l.countP (fun v => decide (t < v)) = l.length - l.countP (fun v => decide (v ≤ t)) := by
  induction l with
  | nil => rfl
  | cons x xs ih =>
    have hle := List.countP_le_length (p := fun v => decide (v ≤ t)) (l := xs)
    rw [List.countP_cons, List.countP_cons]
    rcases le_or_lt x t with hxt | htx
    · rw [decide_eq_true hxt, decide_eq_false (not_lt.mpr hxt)]
      simp only [if_true, if_false, Bool.false_eq_true, List.length_cons]
      omega
    · rw [decide_eq_true htx, decide_eq_false (not_le.mpr htx)]
      simp only [if_true, if_false, Bool.false_eq_true, List.length_cons]
      omega



/-- A 0-based qcut label is at most `k - 1`. -/
theorem qcutLabel_le (s : List ℚ) (k : ℕ) (v : ℚ) : qcutLabel s k v ≤ k - 1 := by
  unfold qcutLabel
  calc ((Finset.Icc 1 (k - 1)).filter (fun j => qEdge s k j < v)).card
      ≤ (Finset.Icc 1 (k - 1)).card := Finset.card_filter_le _ _
  _ = k - 1 := by rw [Nat.card_Icc]; omega

/-- With one quantile requested every label is 0. -/
theorem qcutLabel_k1 (s : List ℚ) (v : ℚ) : qcutLabel s 1 v = 0 := by
  unfold qcutLabel
  have : Finset.Icc 1 (1 - 1) = ∅ := by decide
  rw [this]
  rfl

/-- Bucket 0 holds exactly the values at most the first interior edge. -/
theorem qcutLabel_eq_zero_iff (s : List ℚ) (k : ℕ) (hs : List.Sorted (· < ·) s)
    (h2 : 2 ≤ s.length) (hk2 : 2 ≤ k) (v : ℚ) :
    qcutLabel s k v = 0 ↔ v ≤ qEdge s k 1 := by
  unfold qcutLabel
  rw [Finset.card_eq_zero]
  constructor
  · intro h
    by_contra hv
    push_neg at hv
    have h1 : (1 : ℕ) ∈ (Finset.Icc 1 (k - 1)).filter (fun j => qEdge s k j < v) :=
      Finset.mem_filter.mpr ⟨Finset.mem_Icc.mpr ⟨le_refl 1, by omega⟩, hv⟩
    rw [h] at h1
    exact absurd h1 (Finset.not_mem_empty 1)
  · intro hv
    rw [Finset.filter_eq_empty_iff]
    intro j hj
    obtain ⟨hj1, hjk⟩ := Finset.mem_Icc.mp hj
    have : qEdge s k 1 ≤ qEdge s k j := qEdge_le s k hs h2 (by omega) 1 j hj1 (by omega)
    exact not_lt.mpr (le_trans hv this)

/-- Bucket `k - 1` holds exactly the values above the last interior edge. -/
theorem qcutLabel_eq_top_iff (s : List ℚ) (k : ℕ) (hs : List.Sorted (· < ·) s)
    (h2 : 2 ≤ s.length) (hk2 : 2 ≤ k) (v : ℚ) :
    qcutLabel s k v = k - 1 ↔ qEdge s k (k - 1) < v := by
  unfold qcutLabel
  have hcard : (Finset.Icc 1 (k - 1)).card = k - 1 := by rw [Nat.card_Icc]; omega
  constructor
  · intro h
    have hall : ∀ j ∈ Finset.Icc 1 (k - 1), qEdge s k j < v :=
      Finset.filter_card_eq (by rw [hcard]; exact h)
    exact hall (k - 1) (Finset.mem_Icc.mpr ⟨by omega, le_refl _⟩)
  · intro hv
    have hall : ∀ j ∈ Finset.Icc 1 (k - 1), qEdge s k j < v := by
      intro j hj
      obtain ⟨hj1, hjk⟩ := Finset.mem_Icc.mp hj
      exact lt_of_le_of_lt (qEdge_le s k hs h2 (by omega) j (k - 1) hjk (by omega)) hv
    rw [Finset.filter_true_of_mem hall, hcard]

/-- A middle bucket `b - 1` (with `2 ≤ b ≤ k - 1`) holds exactly the values
in the half-open edge interval `(qEdge (b-1), qEdge b]`. -/
theorem qcutLabel_eq_mid_iff (s : List ℚ) (k b : ℕ) (hs : List.Sorted (· < ·) s)
    (h2 : 2 ≤ s.length) (hb2 : 2 ≤ b) (hbk : b ≤ k - 1) (v : ℚ) :
    qcutLabel s k v = b - 1 ↔ (qEdge s k (b - 1) < v ∧ v ≤ qEdge s k b) := by
  have hk2 : 2 ≤ k := by omega
  unfold qcutLabel
  constructor
  · intro h
    constructor
    · by_contra hlo
      push_neg at hlo
      have hsub : (Finset.Icc 1 (k - 1)).filter (fun j => qEdge s k j < v) ⊆
          Finset.Icc 1 (b - 2) := by
        intro j hj
        obtain ⟨hjm, hjv⟩ := Finset.mem_filter.mp hj
        obtain ⟨hj1, hjk⟩ := Finset.mem_Icc.mp hjm
        refine Finset.mem_Icc.mpr ⟨hj1, ?_⟩
        by_contra hjb
        push_neg at hjb
        have : qEdge s k (b - 1) ≤ qEdge s k j :=
          qEdge_le s k hs h2 (by omega) (b - 1) j (by omega) (by omega)
        exact absurd (lt_of_le_of_lt this hjv) (not_lt.mpr hlo)
      have := Finset.card_le_card hsub
      rw [h, Nat.card_Icc] at this
      omega
    · by_contra hhi
      push_neg at hhi
      have hsub : Finset.Icc 1 b ⊆
          (Finset.Icc 1 (k - 1)).filter (fun j => qEdge s k j < v) := by
        intro j hj
        obtain ⟨hj1, hjb⟩ := Finset.mem_Icc.mp hj
        refine Finset.mem_filter.mpr ⟨Finset.mem_Icc.mpr ⟨hj1, by omega⟩, ?_⟩
        exact lt_of_le_of_lt (qEdge_le s k hs h2 (by omega) j b hjb (by omega)) hhi
      have := Finset.card_le_card hsub
      rw [h, Nat.card_Icc] at this
      omega
  · rintro ⟨hlo, hhi⟩
    have hset : (Finset.Icc 1 (k - 1)).filter (fun j => qEdge s k j < v) =
        Finset.Icc 1 (b - 1) := by
      apply Finset.ext
      intro j
      rw [Finset.mem_filter, Finset.mem_Icc, Finset.mem_Icc]
      constructor
      · rintro ⟨⟨hj1, hjk⟩, hjv⟩
        refine ⟨hj1, ?_⟩
        by_contra hjb
        push_neg at hjb
        have : qEdge s k b ≤ qEdge s k j :=
          qEdge_le s k hs h2 (by omega) b j (by omega) (by omega)
        exact absurd hjv (not_lt.mpr (le_trans hhi this))
      · rintro ⟨hj1, hjb⟩
        exact ⟨⟨hj1, by omega⟩,
          lt_of_le_of_lt (qEdge_le s k hs h2 (by omega) j (b - 1) hjb (by omega)) hlo⟩
    rw [hset, Nat.card_Icc]
    omega



theorem sortedVals_sorted_le (x : List ℚ) : List.Sorted (· ≤ ·) (sortedVals x) :=
  List.sorted_insertionSort _ x

/-- Size of bucket `b` (1-based) of `qcut` on at least two pairwise distinct
values: every bucket holds either `(n - 1) / k` or `(n - 1) / k + 1`
elements. -/
theorem qcut_count (x : List ℚ) (k b : ℕ) (hk : 1 ≤ k) (h2 : 2 ≤ x.length)
    (hx : x.Nodup) (hb1 : 1 ≤ b) (hbk : b ≤ k) :
    ((x.map (fun v => qcutLabel (sortedVals x) k v + 1)).countP (fun l => decide (l = b))
        = (x.length - 1) / k) ∨
    ((x.map (fun v => qcutLabel (sortedVals x) k v + 1)).countP (fun l => decide (l = b))
        = (x.length - 1) / k + 1) := by
  have hperm := sortedVals_perm x
  have hlen := sortedVals_length x
  have hsle := sortedVals_sorted_le x
  have hs := sortedVals_sorted_lt x hx
  have h2s : 2 ≤ (sortedVals x).length := by omega
  have hN : 1 ≤ (sortedVals x).length - 1 := by omega
  have hmap : (x.map (fun v => qcutLabel (sortedVals x) k v + 1)).countP
      (fun l => decide (l = b)) =
      x.countP (fun v => decide (qcutLabel (sortedVals x) k v + 1 = b)) := by
    rw [List.countP_map]
    rfl
  have hxs : x.countP (fun v => decide (qcutLabel (sortedVals x) k v + 1 = b)) =
      (sortedVals x).countP (fun v => decide (qcutLabel (sortedVals x) k v + 1 = b)) :=
    (hperm.countP_eq _).symm
  rw [hmap, hxs, ← hlen]
  rcases Nat.eq_or_lt_of_le hk with hk1 | hk2
  · -- k = 1: a single bucket holding everything
    have hkk : k = 1 := hk1.symm
    subst hkk
    have hbb : b = 1 := by omega
    subst hbb
    have hall : (sortedVals x).countP
        (fun v => decide (qcutLabel (sortedVals x) 1 v + 1 = 1)) =
        (sortedVals x).length := by
      rw [List.countP_eq_length]
      intro v hv
      rw [qcutLabel_k1]
      simp
    right
    rw [hall, Nat.div_one]
    omega
  · -- k ≥ 2
    rcases Nat.eq_or_lt_of_le hb1 with hbone | hb2
    · -- b = 1: the first bucket has (n-1)/k + 1 elements
      have hbb : b = 1 := hbone.symm
      subst hbb
      have hpred : (fun v : ℚ => decide (qcutLabel (sortedVals x) k v + 1 = 1)) =
          (fun v : ℚ => decide (v ≤ qEdge (sortedVals x) k 1)) := by
        funext v
        apply decide_eq_decide.mpr
        constructor
        · intro h
          exact (qcutLabel_eq_zero_iff (sortedVals x) k hs h2s (by omega) v).mp (by omega)
        · intro h
          have := (qcutLabel_eq_zero_iff (sortedVals x) k hs h2s (by omega) v).mpr h
          omega
      rw [hpred]
      have hcount := countP_le_sorted (sortedVals x) hsle (qEdge (sortedVals x) k 1)
        (((sortedVals x).length - 1) * 1 / k)
        (by have := mIdx_lt ((sortedVals x).length - 1) k 1 hN hk2; omega)
        (qEdge_lower (sortedVals x) k 1 hs h2s (le_refl 1) hk2)
        (fun _ => qEdge_upper (sortedVals x) k 1 hs h2s (le_refl 1) hk2)
      right
      rw [hcount, mul_one]
    · rcases Nat.eq_or_lt_of_le hbk with hbtop | hbmid
      · -- b = k: the last bucket
        subst hbtop
        have hpred : (fun v : ℚ => decide (qcutLabel (sortedVals x) b v + 1 = b)) =
            (fun v : ℚ => decide (qEdge (sortedVals x) b (b - 1) < v)) := by
          funext v
          apply decide_eq_decide.mpr
          constructor
          · intro h
            exact (qcutLabel_eq_top_iff (sortedVals x) b hs h2s (by omega) v).mp (by omega)
          · intro h
            have := (qcutLabel_eq_top_iff (sortedVals x) b hs h2s (by omega) v).mpr h
            have hle := qcutLabel_le (sortedVals x) b v
            omega
        rw [hpred, countP_gt]
        have hcount := countP_le_sorted (sortedVals x) hsle (qEdge (sortedVals x) b (b - 1))
          (((sortedVals x).length - 1) * (b - 1) / b)
          (by have := mIdx_lt ((sortedVals x).length - 1) b (b - 1) hN (by omega); omega)
          (qEdge_lower (sortedVals x) b (b - 1) hs h2s (by omega) (by omega))
          (fun _ => qEdge_upper (sortedVals x) b (b - 1) hs h2s (by omega) (by omega))
        rw [hcount]
        have hA : ((sortedVals x).length - 1) * (b - 1) + ((sortedVals x).length - 1) =
            ((sortedVals x).length - 1) * b := by
          cases b with
          | zero => omega
          | succ m => simp [Nat.succ_sub_one, Nat.mul_succ]
        have hlow := div_diff_lower (((sortedVals x).length - 1) * (b - 1))
          ((sortedVals x).length - 1) b (by omega)
        have hupp := div_diff_upper (((sortedVals x).length - 1) * (b - 1))
          ((sortedVals x).length - 1) b (by omega)
        rw [hA, Nat.mul_div_cancel _ (by omega : 0 < b)] at hlow hupp
        have hmN := mIdx_lt ((sortedVals x).length - 1) b (b - 1) hN (by omega)
        omega
      · -- 2 ≤ b ≤ k - 1: a middle bucket
        have hpred : (fun v : ℚ => decide (qcutLabel (sortedVals x) k v + 1 = b)) =
            (fun v : ℚ => decide (qEdge (sortedVals x) k (b - 1) < v) &&
              decide (v ≤ qEdge (sortedVals x) k b)) := by
          funext v
          have hdand : (decide (qEdge (sortedVals x) k (b - 1) < v) &&
              decide (v ≤ qEdge (sortedVals x) k b)) =
              decide (qEdge (sortedVals x) k (b - 1) < v ∧
                v ≤ qEdge (sortedVals x) k b) := by
            by_cases hA : qEdge (sortedVals x) k (b - 1) < v <;>
              by_cases hB : v ≤ qEdge (sortedVals x) k b <;> simp [hA, hB]
          rw [hdand]
          apply decide_eq_decide.mpr
          constructor
          · intro h
            exact (qcutLabel_eq_mid_iff (sortedVals x) k b hs h2s hb2 (by omega) v).mp
              (by omega)
          · intro h
            have := (qcutLabel_eq_mid_iff (sortedVals x) k b hs h2s hb2 (by omega) v).mpr h
            omega
        rw [hpred]
        have hedgele : qEdge (sortedVals x) k (b - 1) ≤ qEdge (sortedVals x) k b :=
          qEdge_le (sortedVals x) k hs h2s (by omega) (b - 1) b (by omega) (by omega)
        have hbetween := countP_between (sortedVals x) (qEdge (sortedVals x) k (b - 1))
          (qEdge (sortedVals x) k b) hedgele
        have hc1 := countP_le_sorted (sortedVals x) hsle (qEdge (sortedVals x) k (b - 1))
          (((sortedVals x).length - 1) * (b - 1) / k)
          (by have := mIdx_lt ((sortedVals x).length - 1) k (b - 1) hN (by omega); omega)
          (qEdge_lower (sortedVals x) k (b - 1) hs h2s (by omega) (by omega))
          (fun _ => qEdge_upper (sortedVals x) k (b - 1) hs h2s (by omega) (by omega))
        have hc2 := countP_le_sorted (sortedVals x) hsle (qEdge (sortedVals x) k b)
          (((sortedVals x).length - 1) * b / k)
          (by have := mIdx_lt ((sortedVals x).length - 1) k b hN (by omega); omega)
          (qEdge_lower (sortedVals x) k b hs h2s (by omega) (by omega))
          (fun _ => qEdge_upper (sortedVals x) k b hs h2s (by omega) (by omega))
        rw [hc1, hc2] at hbetween
        have hA : ((sortedVals x).length - 1) * (b - 1) + ((sortedVals x).length - 1) =
            ((sortedVals x).length - 1) * b := by
          cases b with
          | zero => omega
          | succ m => simp [Nat.succ_sub_one, Nat.mul_succ]
        have hlow := div_diff_lower (((sortedVals x).length - 1) * (b - 1))
          ((sortedVals x).length - 1) k (by omega)
        have hupp := div_diff_upper (((sortedVals x).length - 1) * (b - 1))
          ((sortedVals x).length - 1) k (by omega)
        rw [hA] at hlow hupp
        omega



/-- Summing the per-value counts over any set containing all elements gives
back the length. -/
theorem sum_countP_mem (S : Finset ℕ) (l : List ℕ) (h : ∀ a ∈ l, a ∈ S) :
    (∑ b ∈ S, l.countP (fun y => decide (y = b))) = l.length := by
  induction l with
  | nil => simp
  | cons a t ih =>
    have ht : ∀ y ∈ t, y ∈ S := fun y hy => h y (List.mem_cons_of_mem a hy)
    calc (∑ b ∈ S, (a :: t).countP (fun y => decide (y = b)))
        = ∑ b ∈ S, (t.countP (fun y => decide (y = b)) + if a = b then 1 else 0) := by
          apply Finset.sum_congr rfl
          intro b _
          rw [List.countP_cons]
          by_cases hab : a = b
          · rw [decide_eq_true hab, if_pos hab]
            rfl
          · rw [decide_eq_false hab, if_neg hab]
            rfl
    _ = (∑ b ∈ S, t.countP (fun y => decide (y = b))) +
          ∑ b ∈ S, (if a = b then 1 else 0) := Finset.sum_add_distrib
    _ = t.length + 1 := by
          rw [ih ht]
          congr 1
          simp [Finset.sum_ite_eq, h a (List.mem_cons_self a t)]
    _ = (a :: t).length := by simp

/-- The decorator never changes the computation outcome. -/
theorem non_unique_bin_edges_error_snd {α : Type} (r : Except PyErr α) :
    (non_unique_bin_edges_error r).2 = r := by
  cases r with
  | ok a => rfl
  | error e =>
    cases e with
    | valueError msg =>
      by_cases hm : strContains msg binEdgesMsg <;> simp [non_unique_bin_edges_error, hm]
    | keyErrorAssets a => rfl
    | keyErrorGroups a => rfl
    | nonMatchingTimezoneError a => rfl

/-- Keys whose date differs contribute nothing at date `d`. -/
theorem quantizeGroups_filter_none (rows : List MergedRow) (q b : Option ℕ)
    (KS : List (ℕ × Option String)) (d : ℕ) (out : List ((ℕ × Asset) × ℕ))
    (hok : quantizeGroups rows q b false KS = Except.ok out)
    (hd : ∀ key ∈ KS, key.1 ≠ d) :
    out.filter (fun e => e.1.1 = d) = [] := by
  induction KS generalizing out with
  | nil =>
    cases hok
    rfl
  | cons key ks ih =>
    rw [quantizeGroups] at hok
    cases hq : quantile_calc ((rows.filter (fun r => quantizeKey false r = key)).map
        (fun r => r.factor.getD 0)) q b with
    | error e =>
      rw [hq] at hok
      cases hok
    | ok labs =>
      rw [hq] at hok
      cases hrest : quantizeGroups rows q b false ks with
      | error e =>
        rw [hrest] at hok
        cases hok
      | ok rest =>
        rw [hrest] at hok
        cases hok
        rw [List.filter_append]
        have hzip : (((rows.filter (fun r => quantizeKey false r = key)).map
            (fun r => (r.date, r.asset))).zip labs).filter (fun e => e.1.1 = d) = [] := by
          rw [List.filter_eq_nil_iff]
          intro e he
          have h1 : e.1 ∈ (rows.filter (fun r => quantizeKey false r = key)).map
              (fun r => (r.date, r.asset)) := by
            have := List.of_mem_zip he
            exact this.1
          obtain ⟨r, hr, hre⟩ := List.mem_map.mp h1
          have hkey : quantizeKey false r = key := by
            have := List.mem_filter.mp hr
            simpa using this.2
          have hdate : r.date = key.1 := by
            rw [← hkey]
            rfl
          simp only [← hre, decide_eq_true_eq]
          rw [hdate]
          exact hd key (List.mem_cons_self key ks)
        rw [hzip, ih rest hrest (fun key2 h2 => hd key2 (List.mem_cons_of_mem key h2))]
        rfl

/-- On a nodup all-date key list containing `(d, none)`, filtering the
bucketer output at date `d` recovers exactly the date-`d` group zipped with
its labels. -/
theorem quantizeGroups_filter_eq (rows : List MergedRow) (q b : Option ℕ)
    (KS : List (ℕ × Option String)) (d : ℕ) (out : List ((ℕ × Asset) × ℕ))
    (L : List ℕ)
    (hnd : KS.Nodup) (hall : ∀ key ∈ KS, key.2 = (none : Option String))
    (hmem : (d, (none : Option String)) ∈ KS)
    (hok : quantizeGroups rows q b false KS = Except.ok out)
    (hL : quantile_calc ((rows.filter (fun r => r.date = d)).map
        (fun r => r.factor.getD 0)) q b = Except.ok L) :
    out.filter (fun e => e.1.1 = d) =
      ((rows.filter (fun r => r.date = d)).map (fun r => (r.date, r.asset))).zip L := by
  have hfiltd : ∀ rows2 : List MergedRow,
      rows2.filter (fun r => quantizeKey false r = (d, (none : Option String))) =
      rows2.filter (fun r => r.date = d) := by
    intro rows2
    apply List.filter_congr
    intro r _
    apply decide_eq_decide.mpr
    unfold quantizeKey
    simp
  induction KS generalizing out with
  | nil => cases hmem
  | cons key ks ih =>
    rw [quantizeGroups] at hok
    cases hq : quantile_calc ((rows.filter (fun r => quantizeKey false r = key)).map
        (fun r => r.factor.getD 0)) q b with
    | error e =>
      rw [hq] at hok
      cases hok
    | ok labs =>
      rw [hq] at hok
      cases hrest : quantizeGroups rows q b false ks with
      | error e =>
        rw [hrest] at hok
        cases hok
      | ok rest =>
        rw [hrest] at hok
        cases hok
        rw [List.filter_append]
        by_cases hkd : key = (d, (none : Option String))
        · subst hkd
          rw [hfiltd rows] at hq ⊢
          have hlabs : labs = L := by
            rw [hq] at hL
            cases hL
            rfl
          subst hlabs
          have hzip : (((rows.filter (fun r => r.date = d)).map
              (fun r => (r.date, r.asset))).zip labs).filter (fun e => e.1.1 = d) =
              ((rows.filter (fun r => r.date = d)).map (fun r => (r.date, r.asset))).zip labs := by
            rw [List.filter_eq_self]
            intro e he
            have h1 : e.1 ∈ (rows.filter (fun r => r.date = d)).map
                (fun r => (r.date, r.asset)) := (List.of_mem_zip he).1
            obtain ⟨r, hr, hre⟩ := List.mem_map.mp h1
            have hdate : r.date = d := by
              have := List.mem_filter.mp hr
              simpa using this.2
            simp only [← hre, decide_eq_true_eq]
            exact hdate
          rw [hzip]
          have hrest0 : rest.filter (fun e => e.1.1 = d) = [] := by
            apply quantizeGroups_filter_none rows q b ks d rest hrest
            intro key2 hk2
            have hne : key2 ≠ ((d : ℕ), (none : Option String)) := by
              intro hcon
              rw [hcon] at hk2
              exact (List.nodup_cons.mp hnd).1 hk2
            have h2 : key2.2 = none := hall key2 (List.mem_cons_of_mem _ hk2)
            intro hcon
            apply hne
            cases key2 with
            | mk k1 k2 =>
              simp only at hcon h2
              rw [hcon, h2]
          rw [hrest0, List.append_nil]
        · have hmem2 : ((d : ℕ), (none : Option String)) ∈ ks := by
            rcases List.mem_cons.mp hmem with h | h
            · exact absurd h.symm hkd
            · exact h
          have hzip : (((rows.filter (fun r => quantizeKey false r = key)).map
              (fun r => (r.date, r.asset))).zip labs).filter (fun e => e.1.1 = d) = [] := by
            rw [List.filter_eq_nil_iff]
            intro e he
            have h1 : e.1 ∈ (rows.filter (fun r => quantizeKey false r = key)).map
                (fun r => (r.date, r.asset)) := (List.of_mem_zip he).1
            obtain ⟨r, hr, hre⟩ := List.mem_map.mp h1
            have hkey : quantizeKey false r = key := by
              have := List.mem_filter.mp hr
              simpa using this.2
            have hdate : r.date = key.1 := by
              rw [← hkey]
              rfl
            simp only [← hre, decide_eq_true_eq]
            rw [hdate]
            intro hcon
            apply hkd
            have h2 : key.2 = none := hall key (List.mem_cons_self key ks)
            cases key with
            | mk k1 k2 =>
              simp only at hcon h2
              rw [hcon, h2]
          rw [hzip]
          rw [ih rest (List.nodup_cons.mp hnd).2
            (fun key2 h2 => hall key2 (List.mem_cons_of_mem key h2)) hmem2 hrest]
          rfl



/-- C2 (amended): for every merged table, every `k >= 1` passed as quantiles
(with bins null), and every date `d` with at least two rows whose factor
values are pairwise distinct, the per-date bucketing succeeds and assigns
1-based integer bucket ids from `1..k`; the bucket sizes pairwise differ by
at most one; the bucket counts sum to the date's row count (so the buckets
partition the date's rows with no duplicates or omissions); and whenever the
full `quantize_factor` succeeds, its output restricted to date `d` is exactly
the date's rows zipped with these labels. -/
theorem quantize_factor_partitions (rows : List MergedRow) (k d : ℕ) (hk : 1 ≤ k)
    (h2 : 2 ≤ ((rows.filter (fun r => r.date = d)).map (fun r => r.factor.getD 0)).length)
    (hnd : ((rows.filter (fun r => r.date = d)).map (fun r => r.factor.getD 0)).Nodup) :
    ∃ L : List ℕ,
      quantile_calc ((rows.filter (fun r => r.date = d)).map (fun r => r.factor.getD 0))
          (some k) none = Except.ok L ∧
      L.length = (rows.filter (fun r => r.date = d)).length ∧
      (∀ l ∈ L, 1 ≤ l ∧ l ≤ k) ∧
      (∀ b1 ∈ Finset.Icc 1 k, ∀ b2 ∈ Finset.Icc 1 k,
        (L.countP (fun l => decide (l = b1)) : ℤ) -
          (L.countP (fun l => decide (l = b2)) : ℤ) ≤ 1) ∧
      (∑ b ∈ Finset.Icc 1 k, L.countP (fun l => decide (l = b))) =
        (rows.filter (fun r => r.date = d)).length ∧
      (∀ out, (quantize_factor rows (some k) none false).2 = Except.ok out →
        out.filter (fun e => e.1.1 = d) =
          ((rows.filter (fun r => r.date = d)).map (fun r => (r.date, r.asset))).zip L) := by
  set vals := (rows.filter (fun r => r.date = d)).map (fun r => r.factor.getD 0) with hvals
  refine ⟨vals.map (fun v => qcutLabel (sortedVals vals) k v + 1), ?_, ?_, ?_, ?_, ?_, ?_⟩
  · unfold quantile_calc
    show Except.map (fun ls => List.map (fun x => x + 1) ls) (qcut vals k) =
      Except.ok (vals.map (fun v => qcutLabel (sortedVals vals) k v + 1))
    rw [qcut_eq_ok vals k hk h2 hnd]
    show Except.ok ((vals.map (qcutLabel (sortedVals vals) k)).map (fun x => x + 1)) = _
    rw [List.map_map]
    rfl
  · rw [List.length_map, hvals, List.length_map]
  · intro l hl
    obtain ⟨v, hv, hlv⟩ := List.mem_map.mp hl
    have := qcutLabel_le (sortedVals vals) k v
    omega
  · intro b1 hb1 b2 hb2
    obtain ⟨hb11, hb1k⟩ := Finset.mem_Icc.mp hb1
    obtain ⟨hb21, hb2k⟩ := Finset.mem_Icc.mp hb2
    have hc1 := qcut_count vals k b1 hk h2 hnd hb11 hb1k
    have hc2 := qcut_count vals k b2 hk h2 hnd hb21 hb2k
    rcases hc1 with hc1 | hc1 <;> rcases hc2 with hc2 | hc2 <;> rw [hc1, hc2] <;> omega
  · have hlen2 : (vals.map (fun v => qcutLabel (sortedVals vals) k v + 1)).length =
        (rows.filter (fun r => r.date = d)).length := by
      rw [List.length_map, hvals, List.length_map]
    rw [← hlen2]
    apply sum_countP_mem
    intro a ha
    obtain ⟨v, hv, hlv⟩ := List.mem_map.mp ha
    have := qcutLabel_le (sortedVals vals) k v
    exact Finset.mem_Icc.mpr ⟨by omega, by omega⟩
  · intro out hout
    have hinner : quantizeGroups rows (some k) none false
        ((rows.map (quantizeKey false)).dedup) = Except.ok out := by
      rw [← non_unique_bin_edges_error_snd (quantizeGroups rows (some k) none false
        ((rows.map (quantizeKey false)).dedup))]
      exact hout
    have hLok : quantile_calc vals (some k) none =
        Except.ok (vals.map (fun v => qcutLabel (sortedVals vals) k v + 1)) := by
      unfold quantile_calc
      show Except.map (fun ls => List.map (fun x => x + 1) ls) (qcut vals k) =
        Except.ok (vals.map (fun v => qcutLabel (sortedVals vals) k v + 1))
      rw [qcut_eq_ok vals k hk h2 hnd]
      show Except.ok ((vals.map (qcutLabel (sortedVals vals) k)).map (fun x => x + 1)) = _
      rw [List.map_map]
      rfl
    apply quantizeGroups_filter_eq rows (some k) none
      ((rows.map (quantizeKey false)).dedup) d out _
      (List.nodup_dedup _) ?_ ?_ hinner hLok
    · intro key hkey
      obtain ⟨r, hr, hrk⟩ := List.mem_map.mp (List.mem_dedup.mp hkey)
      rw [← hrk]
      rfl
    · have hne : rows.filter (fun r => r.date = d) ≠ [] := by
        intro hcon
        rw [hvals, hcon] at h2
        simp at h2
      obtain ⟨r, hr⟩ := List.exists_mem_of_ne_nil _ hne
      have hrd : r.date = d := by
        have := List.mem_filter.mp hr
        simpa using this.2
      apply List.mem_dedup.mpr
      apply List.mem_map.mpr
      refine ⟨r, (List.mem_filter.mp hr).1, ?_⟩
      unfold quantizeKey
      rw [hrd]
      rfl

/-- Concrete instance of `quantize_factor_partitions`: one date with factor
values 1 and 2 split into 2 quantiles. -/
theorem quantize_factor_partitions_witness :
    1 ≤ 2 ∧
    2 ≤ ((([⟨0, "A", [], some 1, none, none⟩, ⟨0, "B", [], some 2, none, none⟩] :
        List MergedRow).filter (fun r => r.date = 0)).map (fun r => r.factor.getD 0)).length ∧
    ((([⟨0, "A", [], some 1, none, none⟩, ⟨0, "B", [], some 2, none, none⟩] :
        List MergedRow).filter (fun r => r.date = 0)).map (fun r => r.factor.getD 0)).Nodup ∧
    (∃ L : List ℕ,
      quantile_calc ((([⟨0, "A", [], some 1, none, none⟩, ⟨0, "B", [], some 2, none, none⟩] :
          List MergedRow).filter (fun r => r.date = 0)).map (fun r => r.factor.getD 0))
          (some 2) none = Except.ok L ∧
      L.length = (([⟨0, "A", [], some 1, none, none⟩, ⟨0, "B", [], some 2, none, none⟩] :
          List MergedRow).filter (fun r => r.date = 0)).length ∧
      (∀ l ∈ L, 1 ≤ l ∧ l ≤ 2) ∧
      (∀ b1 ∈ Finset.Icc 1 2, ∀ b2 ∈ Finset.Icc 1 2,
        (L.countP (fun l => decide (l = b1)) : ℤ) -
          (L.countP (fun l => decide (l = b2)) : ℤ) ≤ 1) ∧
      (∑ b ∈ Finset.Icc 1 2, L.countP (fun l => decide (l = b))) =
        (([⟨0, "A", [], some 1, none, none⟩, ⟨0, "B", [], some 2, none, none⟩] :
          List MergedRow).filter (fun r => r.date = 0)).length ∧
      (∀ out, (quantize_factor [⟨0, "A", [], some 1, none, none⟩,
          ⟨0, "B", [], some 2, none, none⟩] (some 2) none false).2 = Except.ok out →
        out.filter (fun e => e.1.1 = 0) =
          ((([⟨0, "A", [], some 1, none, none⟩, ⟨0, "B", [], some 2, none, none⟩] :
            List MergedRow).filter (fun r => r.date = 0)).map
              (fun r => (r.date, r.asset))).zip L)) :=
  ⟨by decide, by decide, by decide,
    quantize_factor_partitions
      [⟨0, "A", [], some 1, none, none⟩, ⟨0, "B", [], some 2, none, none⟩] 2 0
      (by decide) (by decide) (by decide)⟩

/-- C2 counterexample: on a date with factor values 1, 1, 2 and
`quantiles = 2`, no tie spans a would-be bucket boundary (the equal split is
ranks 0-1 against rank 2, and the tied value 1 occupies exactly ranks 0-1),
yet `quantize_factor` raises the bin-edges ValueError instead of assigning
bucket ids: the interpolated median edge equals the minimum edge.  This
refutes the claim as stated. -/
theorem quantize_ties_counterexample :
    tieSpansBoundary [1, 1, 2] 2 = false ∧
    ((degenerateRows.filter (fun r => r.date = 0)).map (fun r => r.factor.getD 0)) =
      [1, 1, 2] ∧
    (quantize_factor degenerateRows (some 2) none false).2 =
      Except.error (PyErr.valueError binEdgesMsg) := by
  refine ⟨by decide, by decide, ?_⟩
  unfold quantize_factor
  rw [non_unique_bin_edges_error_snd]
  exact quantizeGroups_degenerate

/-- `quantile_calc` raises the configuration ValueError exactly when both or
neither of quantiles/bins are given. -/
theorem quantile_calc_config_error (x : List ℚ) (quantiles bins : Option ℕ)
    (hboth : (quantiles = none ∧ bins = none) ∨
      ((∃ k, quantiles = some k) ∧ (∃ b, bins = some b))) :
    quantile_calc x quantiles bins =
      Except.error (PyErr.valueError "Either quantiles or bins should be provided") := by
  rcases hboth with ⟨hq, hb⟩ | ⟨⟨k, hq⟩, ⟨b, hb⟩⟩ <;> subst hq <;> subst hb <;> rfl

/-- On a nonempty merged table with both-or-neither quantiles/bins, the
bucketer raises the configuration ValueError (the first date group already
raises). -/
theorem quantize_factor_config_error (rows : List MergedRow)
    (quantiles bins : Option ℕ) (by_group : Bool) (hrows : rows ≠ [])
    (hboth : (quantiles = none ∧ bins = none) ∨
      ((∃ k, quantiles = some k) ∧ (∃ b, bins = some b))) :
    (quantize_factor rows quantiles bins by_group).2 =
      Except.error (PyErr.valueError "Either quantiles or bins should be provided") := by
  unfold quantize_factor
  rw [non_unique_bin_edges_error_snd]
  cases hks : (rows.map (quantizeKey by_group)).dedup with
  | nil =>
    exfalso
    apply hrows
    have h1 : rows.map (quantizeKey by_group) = [] := (List.dedup_eq_nil _).mp hks
    exact List.map_eq_nil_iff.mp h1
  | cons key ks =>
    rw [quantizeGroups]
    rw [quantile_calc_config_error _ _ _ hboth]



/-- C3 (amended): with both or neither of quantiles/bins supplied, the
configuration ValueError is raised — but only at the bucketing step: by the
time it propagates, forward returns have been computed and the merge and
dropna steps have run (the event trace contains forwardReturnsComputed); it
requires the timezone and group checks to pass and at least one row to
survive dropna (an empty merged table raises nothing at all). -/
theorem config_error_after_computation
    (factor : List ((ℕ × Asset) × ℚ)) (tzFactor tzPrices : Option String)
    (prices : List (List ℚ)) (assets : List Asset)
    (groupby : Option GroupBySpec) (by_group : Bool)
    (quantiles bins : Option ℕ) (periods : List ℕ) (filter_zscore : Option ℚ)
    (groupby_labels : Option (List (String × String)))
    (groups : Option (List ((ℕ × Asset) × String)))
    (htz : tzFactor = tzPrices)
    (hres : resolve_groupby factor groupby groupby_labels = Except.ok groups)
    (hboth : (quantiles = none ∧ bins = none) ∨
      ((∃ k, quantiles = some k) ∧ (∃ b, bins = some b)))
    (hne : dropna groups.isSome
      (merged_rows factor prices assets periods filter_zscore groups) ≠ []) :
    (get_clean_factor_and_forward_returns factor tzFactor tzPrices prices assets
        groupby by_group quantiles bins periods filter_zscore groupby_labels).2 =
      Except.error (PyErr.valueError "Either quantiles or bins should be provided") ∧
    PipelineEvent.forwardReturnsComputed ∈
      (get_clean_factor_and_forward_returns factor tzFactor tzPrices prices assets
        groupby by_group quantiles bins periods filter_zscore groupby_labels).1 := by
  have hq := quantize_factor_config_error
    (dropna groups.isSome (merged_rows factor prices assets periods filter_zscore groups))
    quantiles bins by_group hne hboth
  unfold get_clean_factor_and_forward_returns
  rw [if_neg (by simp [htz]), hres]
  constructor
  · show (pipeline_after_merge factor prices assets by_group quantiles bins periods
      filter_zscore groups).2 = _
    unfold pipeline_after_merge
    rw [hq]
  · show PipelineEvent.forwardReturnsComputed ∈ (pipeline_after_merge factor prices
      assets by_group quantiles bins periods filter_zscore groups).1
    unfold pipeline_after_merge
    rw [hq]
    simp

/-- C3 counterexample: on a concrete two-asset panel with both quantiles
and bins supplied, the configuration error is indeed raised, but the event
trace shows forward returns were computed (and rows merged and dropped)
before it — refuting the claim that the error precedes any computation. -/
theorem config_error_not_immediate :
    (get_clean_factor_and_forward_returns C3factor none none C3prices ["A", "B"]
        none false (some 2) (some 2) [1] none none).2 =
      Except.error (PyErr.valueError "Either quantiles or bins should be provided") ∧
    PipelineEvent.forwardReturnsComputed ∈
      (get_clean_factor_and_forward_returns C3factor none none C3prices ["A", "B"]
        none false (some 2) (some 2) [1] none none).1 := by
  constructor
  · decide
  · decide

/-- Concrete instance of `config_error_after_computation`. -/
theorem config_error_after_computation_witness :
    resolve_groupby C3factor none none = Except.ok none ∧
    dropna false (merged_rows C3factor C3prices ["A", "B"] [1] none none) ≠ [] ∧
    (get_clean_factor_and_forward_returns C3factor none none C3prices ["A", "B"]
        none false (some 2) (some 2) [1] none none).2 =
      Except.error (PyErr.valueError "Either quantiles or bins should be provided") := by
  refine ⟨rfl, by decide, ?_⟩
  exact (config_error_after_computation C3factor none none C3prices ["A", "B"]
    none false (some 2) (some 2) [1] none none none rfl rfl
    (Or.inr ⟨⟨2, rfl⟩, ⟨2, rfl⟩⟩) (by decide)).1

/-- C5: with a static asset-to-group dict missing some factor asset, the
pipeline raises KeyError before producing any result, and the error carries
exactly the set of missing assets (membership iff, and no duplicates);
likewise, when the assets all resolve but some group code lacks an entry in
the supplied labels dict, the KeyError carries exactly the set of missing
group codes. -/
theorem group_mapping_error_lists_missing
    (factor : List ((ℕ × Asset) × ℚ)) (tzFactor tzPrices : Option String)
    (prices : List (List ℚ)) (assets : List Asset) (by_group : Bool)
    (quantiles bins : Option ℕ) (periods : List ℕ) (filter_zscore : Option ℚ)
    (m : List (Asset × String)) (groupby_labels : Option (List (String × String)))
    (htz : tzFactor = tzPrices) :
    (missing_assets factor m ≠ [] →
      (get_clean_factor_and_forward_returns factor tzFactor tzPrices prices assets
          (some (GroupBySpec.dict m)) by_group quantiles bins periods filter_zscore
          groupby_labels).2 =
        Except.error (PyErr.keyErrorAssets (missing_assets factor m)) ∧
      (∀ a, a ∈ missing_assets factor m ↔
        ((∃ e ∈ factor, e.1.2 = a) ∧ m.find? (fun p => p.1 = a) = none)) ∧
      (missing_assets factor m).Nodup) ∧
    (∀ lbls, groupby_labels = some lbls → missing_assets factor m = [] →
      missing_groups (broadcast_groupby factor m) lbls ≠ [] →
      (get_clean_factor_and_forward_returns factor tzFactor tzPrices prices assets
          (some (GroupBySpec.dict m)) by_group quantiles bins periods filter_zscore
          groupby_labels).2 =
        Except.error (PyErr.keyErrorGroups
          (missing_groups (broadcast_groupby factor m) lbls)) ∧
      (∀ g, g ∈ missing_groups (broadcast_groupby factor m) lbls ↔
        ((∃ e ∈ broadcast_groupby factor m, e.2 = g) ∧
          lbls.find? (fun p => p.1 = g) = none)) ∧
      (missing_groups (broadcast_groupby factor m) lbls).Nodup) := by
  constructor
  · intro hmiss
    refine ⟨?_, ?_, ?_⟩
    · unfold get_clean_factor_and_forward_returns
      rw [if_neg (by simp [htz])]
      have hres : resolve_groupby factor (some (GroupBySpec.dict m)) groupby_labels =
          Except.error (PyErr.keyErrorAssets (missing_assets factor m)) := by
        unfold resolve_groupby
        show (match (if missing_assets factor m ≠ [] then
            Except.error (PyErr.keyErrorAssets (missing_assets factor m))
          else Except.ok (broadcast_groupby factor m) :
            Except PyErr (List ((ℕ × Asset) × String))) with
          | Except.error e => Except.error e
          | Except.ok bcast =>
            match groupby_labels with
            | none => Except.ok (some bcast)
            | some lbls =>
              if missing_groups bcast lbls ≠ [] then
                Except.error (PyErr.keyErrorGroups (missing_groups bcast lbls))
              else Except.ok (some (relabel bcast lbls))) = _
        rw [if_pos hmiss]
      rw [hres]
    · intro a
      unfold missing_assets
      rw [List.mem_filter, List.mem_dedup, List.mem_map]
      constructor
      · rintro ⟨⟨e, he, hea⟩, hfind⟩
        exact ⟨⟨e, he, hea⟩, Option.isNone_iff_eq_none.mp (by simpa using hfind)⟩
      · rintro ⟨⟨e, he, hea⟩, hfind⟩
        exact ⟨⟨e, he, hea⟩, by simp [hfind]⟩
    · exact (List.nodup_dedup _).filter _
  · intro lbls hlbls hmiss hmg
    subst hlbls
    refine ⟨?_, ?_, ?_⟩
    · unfold get_clean_factor_and_forward_returns
      rw [if_neg (by simp [htz])]
      have hres : resolve_groupby factor (some (GroupBySpec.dict m)) (some lbls) =
          Except.error (PyErr.keyErrorGroups
            (missing_groups (broadcast_groupby factor m) lbls)) := by
        unfold resolve_groupby
        show (match (if missing_assets factor m ≠ [] then
            Except.error (PyErr.keyErrorAssets (missing_assets factor m))
          else Except.ok (broadcast_groupby factor m) :
            Except PyErr (List ((ℕ × Asset) × String))) with
          | Except.error e => Except.error e
          | Except.ok bcast =>
            match some lbls with
            | none => Except.ok (some bcast)
            | some lbls2 =>
              if missing_groups bcast lbls2 ≠ [] then
                Except.error (PyErr.keyErrorGroups (missing_groups bcast lbls2))
              else Except.ok (some (relabel bcast lbls2))) = _
        rw [if_neg (by simpa using hmiss)]
        show (if missing_groups (broadcast_groupby factor m) lbls ≠ [] then
            Except.error (PyErr.keyErrorGroups
              (missing_groups (broadcast_groupby factor m) lbls))
          else Except.ok (some (relabel (broadcast_groupby factor m) lbls))) = _
        rw [if_pos hmg]
      rw [hres]
    · intro g
      unfold missing_groups
      rw [List.mem_filter, List.mem_dedup, List.mem_map]
      constructor
      · rintro ⟨⟨e, he, heg⟩, hfind⟩
        exact ⟨⟨e, he, heg⟩, Option.isNone_iff_eq_none.mp (by simpa using hfind)⟩
      · rintro ⟨⟨e, he, heg⟩, hfind⟩
        exact ⟨⟨e, he, heg⟩, by simp [hfind]⟩
    · exact (List.nodup_dedup _).filter _

/-- Concrete instance of `group_mapping_error_lists_missing`: asset B has
no entry in the group dict. -/
theorem group_mapping_error_lists_missing_witness :
    missing_assets C3factor [("A", "G1")] ≠ [] ∧
    (get_clean_factor_and_forward_returns C3factor none none C3prices ["A", "B"]
        (some (GroupBySpec.dict [("A", "G1")])) false (some 2) none [1] none none).2 =
      Except.error (PyErr.keyErrorAssets (missing_assets C3factor [("A", "G1")])) :=
  ⟨by decide,
    ((group_mapping_error_lists_missing C3factor none none C3prices ["A", "B"] false
      (some 2) none [1] none [("A", "G1")] none rfl).1 (by decide)).1⟩

end Alphalens
